import Mathlib

/-!
Verification development for the OCapN CapTP test suite
(`ocapn/ocapn-test-suite`).

The development shallowly embeds the parts of the repository that the
verified properties are about:

* `contrib/syrup.py` — the Syrup codec (`syrup_encode`, `syrup_read`,
  `syrup_decode`);
* `utils/captp.py` — the CapTP session driver (`CapTPSession.id`,
  `CapTPSession.setup_session`, `CapTPSession.receive_message`,
  `CapTPSession.expect_promise_resolution`);
* `utils/captp_types.py` — `OpStartSession.valid` and the message types the
  session driver inspects;
* `utils/ocapn_uris.py` — `OCapNNode.from_uri` / `OCapNNode.to_uri`.

Modelling conventions:

* Python `bytes` values are `List Nat` (each entry is one octet).
* Python `str` values inside Syrup values are represented by their UTF-8
  encodings (`List Nat`); `str.encode("utf-8")` / `bytes.decode("utf-8")`
  form a bijection between Python strings and valid UTF-8 byte strings, so
  this identification preserves the round-trip claims under study.  The
  decoder model keeps the raw payload bytes and does not re-validate UTF-8.
* Python `float` values are represented by the 8 bytes of their big-endian
  IEEE 754 encoding, exactly the bytes `struct.pack(">d", x)` produces and
  `struct.unpack(">d", b)` consumes.  Single-precision coercion
  (`struct.unpack(">f", ...)` coerced to a Python double) is an abstract
  parameter `conv` taking the 4 payload bytes to the 8 bytes of the
  resulting double.
* Python dictionaries are insertion-ordered association lists and Python
  sets are element lists; values equal under Python `==` correspond to
  lists that are permutations of each other (with distinct keys/elements).
* SHA-256 and Ed25519 signature verification are abstract function
  parameters: every property proved about them holds for every choice of
  the hash/verifier, in particular for the real ones.
* The decoder in the source is a recursive-descent reader over a seekable
  stream; it is modelled as a function from the remaining byte list to a
  value and the unconsumed suffix.  Recursion is bounded by explicit fuel;
  `input.length + 1` units are always sufficient (each recursive call
  consumes at least one byte), so the fuel never changes the modelled
  behaviour on the inputs considered.
-/

/-! ## Syrup values (`contrib/syrup.py`) -/

/-- Universe of Syrup values handled by `syrup_encode` / `syrup_read`:
arbitrary-precision integers, byte strings, UTF-8 strings, symbols,
booleans, double floats, lists, dictionaries, sets and records
(`contrib/syrup.py`, classes `Record` and `Symbol` plus the builtin Python
types dispatched on in `syrup_encode`). -/
inductive Value where
  | int (n : Int)
  | bytes (b : List Nat)
  | str (utf8 : List Nat)
  | sym (utf8 : List Nat)
  | bool (b : Bool)
  | double (bits : List Nat)
  | list (xs : List Value)
  | dict (kvs : List (Value × Value))
  | set (xs : List Value)
  | record (label : Value) (args : List Value)

/-- Whitespace bytes: `string.whitespace.encode("latin-1")` is
`b" \t\n\r\x0b\x0c"`. -/
def isWs (b : Nat) : Bool :=
  b = 9 || b = 10 || b = 11 || b = 12 || b = 13 || b = 32

/-- Digit bytes: `string.digits.encode("latin-1")`, i.e. `b"0123456789"`. -/
def isDigitB (b : Nat) : Bool :=
  48 ≤ b && b ≤ 57

/-- Little-endian base-10 digits, computed with explicit fuel so that the
definition is structurally recursive (and hence evaluates inside the
kernel); `decDigits` below instantiates the fuel sufficiently and agrees
with Mathlib's `Nat.digits 10`. -/
def decDigitsAux : Nat → Nat → List Nat
  | 0, _ => []
  | _ + 1, 0 => []
  | f + 1, n + 1 => ((n + 1) % 10) :: decDigitsAux f ((n + 1) / 10)

/-- Little-endian base-10 digits of `n` (empty for `n = 0`). -/
def decDigits (n : Nat) : List Nat :=
  decDigitsAux n n

/-- Decimal digits of a positive number, most significant first, as ASCII
bytes (the bytes of Python `str(n)` for `n > 0`). -/
def decimalDigits (n : Nat) : List Nat :=
  (decDigits n).reverse.map (fun d => d + 48)

/-- Bytes of Python `str(n)` for `n ≥ 0` (in particular `str(0) = "0"`). -/
def decimalOf (n : Nat) : List Nat :=
  if n = 0 then [48] else decimalDigits n

/-- Model of `netstring_encode(bstr, joiner)` from `contrib/syrup.py`:
`str(len(bstr)).encode("latin-1") + joiner + bstr`. -/
def netstring_encode (bstr : List Nat) (joiner : Nat) : List Nat :=
  decimalOf bstr.length ++ joiner :: bstr

/-- Comparison used when sorting a dictionary's entries: Python's
`sorted(..., key=lambda x: x[0])` compares only the encoded keys
(byte-wise lexicographically). -/
def keyLe (a b : List Nat × List Nat) : Prop := a.1 ≤ b.1

instance : DecidableRel keyLe := fun a b => inferInstanceAs (Decidable (a.1 ≤ b.1))

instance : IsTotal (List Nat × List Nat) keyLe := ⟨fun a b => le_total a.1 b.1⟩

instance : IsTrans (List Nat × List Nat) keyLe := ⟨fun _ _ _ h1 h2 => le_trans h1 h2⟩

/-- Byte-wise lexicographic comparison of whole encoded elements, used when
sorting a set's elements (`sorted(encoded_items)` in `syrup_encode`). -/
def bytesLe (a b : List Nat) : Prop := a ≤ b

instance : DecidableRel bytesLe := fun a b => inferInstanceAs (Decidable (a ≤ b))

instance : IsTotal (List Nat) bytesLe := ⟨fun a b => le_total a b⟩

instance : IsTrans (List Nat) bytesLe := ⟨fun _ _ _ h1 h2 => le_trans h1 h2⟩

instance : IsAntisymm (List Nat) bytesLe := ⟨fun _ _ h1 h2 => le_antisymm h1 h2⟩

mutual

/-- Model of `syrup_encode(obj)` (`contrib/syrup.py`, lines 69–127).
Dictionaries: the source encodes every key, sorts the `(encoded_key, key)`
pairs by encoded key with Python's stable `sorted`, and then appends to
each sorted encoded key the encoding of the value looked up under that key;
`encodePairs` encodes key and value together, which produces the same
output (dictionaries have no duplicate keys, and sorting is on the encoded
key only; `List.insertionSort` is a stable sort, like Python's).  Sets: the
source sorts the encoded elements themselves. -/
def syrup_encode : Value → List Nat
  | .bytes b => netstring_encode b 58
  | .bool true => [116]
  | .bool false => [102]
  | .int n =>
      if n = 0 then [48, 43]
      else if 0 < n then decimalDigits n.toNat ++ [43]
      else decimalDigits (-n).toNat ++ [45]
  | .list xs => 91 :: encodeItems xs ++ [93]
  | .dict kvs =>
      123 :: ((List.insertionSort keyLe (encodePairs kvs)).map
        (fun p => p.1 ++ p.2)).flatten ++ [125]
  | .str s => netstring_encode s 34
  | .sym s => netstring_encode s 39
  | .double bits => 68 :: bits
  | .record label args => 60 :: (syrup_encode label ++ encodeItems args) ++ [62]
  | .set xs => 35 :: (List.insertionSort bytesLe (encodeItems2 xs)).flatten ++ [36]

/-- Concatenation of the encodings of a list of values (the
`b"".join(encoded_items)` of the list and record cases). -/
def encodeItems : List Value → List Nat
  | [] => []
  | x :: xs => syrup_encode x ++ encodeItems xs

/-- Encodings of the elements of a set, kept separate so they can be
sorted before being joined. -/
def encodeItems2 : List Value → List (List Nat)
  | [] => []
  | x :: xs => syrup_encode x :: encodeItems2 xs

/-- Encoded `(key, value)` pairs of a dictionary, prior to sorting. -/
def encodePairs : List (Value × Value) → List (List Nat × List Nat)
  | [] => []
  | (k, v) :: kvs => (syrup_encode k, syrup_encode v) :: encodePairs kvs

end

/-- Strict byte-wise lexicographic sortedness of adjacent elements.  A list
of encodings satisfying this is sorted with no duplicates. -/
def sortedStrictLt : List (List Nat) → Bool
  | [] => true
  | [_] => true
  | a :: b :: t => decide (a < b) && sortedStrictLt (b :: t)

/-- Encoded keys of a dictionary, in entry order. -/
def keyEncs (kvs : List (Value × Value)) : List (List Nat) :=
  kvs.map (fun kv => syrup_encode kv.1)

mutual

/-- Canonical-form predicate on modelled Syrup values.  A Python value and
its model are related up to reordering of dictionaries and sets (Python
`==` ignores their order); `canonical` singles out the canonical
representative of each such class: dictionary entries strictly sorted by
encoded key, set elements strictly sorted by encoding, and every double
carrying exactly the 8 bytes `struct.pack(">d", ...)` produces.  Every
Python dictionary/set has exactly one canonical representative. -/
def canonical : Value → Bool
  | .int _ => true
  | .bytes _ => true
  | .str _ => true
  | .sym _ => true
  | .bool _ => true
  | .double bits => bits.length == 8
  | .list xs => canonItems xs
  | .dict kvs => sortedStrictLt (keyEncs kvs) && canonPairs kvs
  | .set xs => sortedStrictLt (encodeItems2 xs) && canonItems xs
  | .record label args => canonical label && canonItems args

/-- All values in a list are canonical. -/
def canonItems : List Value → Bool
  | [] => true
  | x :: xs => canonical x && canonItems xs

/-- All keys and values of a dictionary are canonical. -/
def canonPairs : List (Value × Value) → Bool
  | [] => true
  | (k, v) :: kvs => canonical k && canonical v && canonPairs kvs

end

/-- Exceptions the Syrup codec can raise (`contrib/syrup.py`), plus two
model artefacts for situations where the Python reader would block or the
model's recursion fuel runs out. -/
inductive SyrupError where
  /-- `SyrupDecodeError`, raised for an invalid digit while reading a
  length/integer prefix. -/
  | syrupDecodeError
  /-- `SyrupEncodeError`; `syrup_read` raises this (encode-side!) class for
  an unexpected leading character (lines 257–260). -/
  | syrupEncodeError
  /-- `SyrupSingleFloatsNotSupported`, raised for tag `F` when
  `convert_singles` is false. -/
  | singleFloatsNotSupported
  /-- `struct.error` from `struct.unpack` when fewer payload bytes than
  required remain. -/
  | structError
  /-- At end of input Python's `peek_byte` returns `b""`, which the
  membership tests treat as whitespace/digit, so the reader loops forever;
  the model reports this distinguished error instead. -/
  | eofStall
  /-- Model artefact: recursion fuel exhausted (never occurs with fuel
  `input.length + 1`). -/
  | fuelExhausted
deriving DecidableEq

/-- Atom kind determined by the joiner byte that terminates a run of
digits (`syrup_read`, lines 152–177). -/
inductive AtomTag where
  | bstr
  | strAtom
  | symAtom
  | intPos
  | intNeg
deriving DecidableEq

/-- Model of the digit-accumulation loop of `syrup_read` (lines 154–177):
reads bytes until a joiner is found, accumulating digits, and raises
`SyrupDecodeError` on any other byte.  At end of input the Python loop
spins forever (`b"" in digit_chars` is true); the model returns
`eofStall`. -/
def readDigitsLoop (acc : List Nat) : List Nat → Except SyrupError (AtomTag × List Nat × List Nat)
  | [] => .error .eofStall
  | c :: rest =>
      if c = 58 then .ok (.bstr, acc, rest)
      else if c = 34 then .ok (.strAtom, acc, rest)
      else if c = 39 then .ok (.symAtom, acc, rest)
      else if c = 43 then .ok (.intPos, acc, rest)
      else if c = 45 then .ok (.intNeg, acc, rest)
      else if isDigitB c then readDigitsLoop (acc ++ [c]) rest
      else .error .syrupDecodeError

/-- Numeric value of a run of ASCII digit bytes, i.e. Python
`int(bytes_len_str)`. -/
def digitsVal (ds : List Nat) : Nat :=
  ds.foldl (fun a b => a * 10 + (b - 48)) 0

mutual

/-- Model of `syrup_read(f, convert_singles)` (`contrib/syrup.py`, lines
141–260) on the remaining input bytes.  Returns the decoded value and the
unconsumed suffix.  `conv` models the single→double coercion
`struct.pack(">d", struct.unpack(">f", raw)[0])` applied to the 4 raw
bytes.  Payload reads (`f.read(n)`) return at most `n` bytes without
erroring, exactly like Python file reads; `str`/`symbol` payloads are kept
as their raw UTF-8 bytes. -/
def readValue (cs : Bool) (conv : List Nat → List Nat) :
    Nat → List Nat → Except SyrupError (Value × List Nat)
  | 0, _ => .error .fuelExhausted
  | fuel + 1, input =>
      match input.dropWhile (fun b => isWs b) with
      | [] => .error .eofStall
      | b :: rest =>
          if isDigitB b then
            match readDigitsLoop [] (b :: rest) with
            | .error e => .error e
            | .ok (tag, ds, rest2) =>
                let n := digitsVal ds
                match tag with
                | .intPos => .ok (.int (n : Int), rest2)
                | .intNeg => .ok (.int (-(n : Int)), rest2)
                | .bstr => .ok (.bytes (rest2.take n), rest2.drop n)
                | .strAtom => .ok (.str (rest2.take n), rest2.drop n)
                | .symAtom => .ok (.sym (rest2.take n), rest2.drop n)
          else if b = 91 || b = 40 || b = 108 then
            match readListItems cs conv fuel rest with
            | .error e => .error e
            | .ok (xs, rest2) => .ok (.list xs, rest2)
          else if b = 123 || b = 100 then
            match readDictItems cs conv fuel rest with
            | .error e => .error e
            | .ok (kvs, rest2) => .ok (.dict kvs, rest2)
          else if b = 60 then
            match readValue cs conv fuel rest with
            | .error e => .error e
            | .ok (label, rest2) =>
                match readRecordArgs cs conv fuel rest2 with
                | .error e => .error e
                | .ok (args, rest3) => .ok (.record label args, rest3)
          else if b = 70 then
            if cs then
              if 4 ≤ rest.length then .ok (.double (conv (rest.take 4)), rest.drop 4)
              else .error .structError
            else .error .singleFloatsNotSupported
          else if b = 68 then
            if 8 ≤ rest.length then .ok (.double (rest.take 8), rest.drop 8)
            else .error .structError
          else if b = 102 then .ok (.bool false, rest)
          else if b = 116 then .ok (.bool true, rest)
          else if b = 35 then
            match readSetItems cs conv fuel rest with
            | .error e => .error e
            | .ok (xs, rest2) => .ok (.set xs, rest2)
          else .error .syrupEncodeError

/-- List-reading loop of `syrup_read` (lines 192–201): stops on `]`, `)`
or `e` (and at end of input, where `peek_byte` returns `b""`, which the
source treats as a closer). -/
def readListItems (cs : Bool) (conv : List Nat → List Nat) :
    Nat → List Nat → Except SyrupError (List Value × List Nat)
  | 0, _ => .error .fuelExhausted
  | fuel + 1, input =>
      match input with
      | [] => .ok ([], [])
      | b :: rest =>
          if b = 93 || b = 41 || b = 101 then .ok ([], rest)
          else
            match readValue cs conv fuel (b :: rest) with
            | .error e => .error e
            | .ok (x, rest2) =>
                match readListItems cs conv fuel rest2 with
                | .error e => .error e
                | .ok (xs, rest3) => .ok (x :: xs, rest3)

/-- Dictionary-reading loop of `syrup_read` (lines 203–214): stops on `}`
or `e` (and at end of input).  `d[key] = val` stores pairs in insertion
order; on the inputs studied keys never repeat, so the model conses pairs
in stream order. -/
def readDictItems (cs : Bool) (conv : List Nat → List Nat) :
    Nat → List Nat → Except SyrupError (List (Value × Value) × List Nat)
  | 0, _ => .error .fuelExhausted
  | fuel + 1, input =>
      match input with
      | [] => .ok ([], [])
      | b :: rest =>
          if b = 125 || b = 101 then .ok ([], rest)
          else
            match readValue cs conv fuel (b :: rest) with
            | .error e => .error e
            | .ok (k, rest2) =>
                match readValue cs conv fuel rest2 with
                | .error e => .error e
                | .ok (v, rest3) =>
                    match readDictItems cs conv fuel rest3 with
                    | .error e => .error e
                    | .ok (kvs, rest4) => .ok ((k, v) :: kvs, rest4)

/-- Record-argument loop of `syrup_read` (lines 216–226): stops only on an
exact `>`; at end of input the source recurses into `syrup_read` and
stalls. -/
def readRecordArgs (cs : Bool) (conv : List Nat → List Nat) :
    Nat → List Nat → Except SyrupError (List Value × List Nat)
  | 0, _ => .error .fuelExhausted
  | fuel + 1, input =>
      if input.head? = some 62 then .ok ([], input.tail)
      else
        match readValue cs conv fuel input with
        | .error e => .error e
        | .ok (x, rest2) =>
            match readRecordArgs cs conv fuel rest2 with
            | .error e => .error e
            | .ok (xs, rest3) => .ok (x :: xs, rest3)

/-- Set-reading loop of `syrup_read` (lines 247–256): stops only on an
exact `$`.  `s.add(...)` deduplicates under Python `==`; on the inputs
studied the elements are pairwise distinct, so the model conses elements
in stream order. -/
def readSetItems (cs : Bool) (conv : List Nat → List Nat) :
    Nat → List Nat → Except SyrupError (List Value × List Nat)
  | 0, _ => .error .fuelExhausted
  | fuel + 1, input =>
      if input.head? = some 36 then .ok ([], input.tail)
      else
        match readValue cs conv fuel input with
        | .error e => .error e
        | .ok (x, rest2) =>
            match readSetItems cs conv fuel rest2 with
            | .error e => .error e
            | .ok (xs, rest3) => .ok (x :: xs, rest3)

end

/-- Model of `syrup_read` on a byte string positioned at its start.  Fuel
`input.length + 1` always suffices: every recursive call consumes at least
one input byte. -/
def syrup_read (cs : Bool) (conv : List Nat → List Nat) (input : List Nat) :
    Except SyrupError (Value × List Nat) :=
  readValue cs conv (input.length + 1) input

/-- Model of `syrup_decode(bstr, convert_singles)` (lines 263–264): read
one value from the start of the byte string (trailing bytes are
ignored). -/
def syrup_decode (cs : Bool) (conv : List Nat → List Nat) (input : List Nat) :
    Except SyrupError Value :=
  match syrup_read cs conv input with
  | .error e => .error e
  | .ok (v, _) => .ok v

mutual

/-- Recursion fuel sufficient for `readValue` to decode the encoding of a
value (each loop iteration and each nested read consumes one unit). -/
def fneed : Value → Nat
  | .int _ => 1
  | .bytes _ => 1
  | .str _ => 1
  | .sym _ => 1
  | .bool _ => 1
  | .double _ => 1
  | .list xs => 1 + fneedItems xs
  | .dict kvs => 1 + fneedPairs kvs
  | .set xs => 1 + fneedItems xs
  | .record label args => 1 + max (fneed label) (fneedItems args)

/-- Fuel sufficient for the element loops. -/
def fneedItems : List Value → Nat
  | [] => 1
  | x :: xs => 1 + max (fneed x) (fneedItems xs)

/-- Fuel sufficient for the dictionary loop. -/
def fneedPairs : List (Value × Value) → Nat
  | [] => 1
  | (k, v) :: kvs => 1 + max (fneed k) (max (fneed v) (fneedPairs kvs))

end

/-- Bytes that begin some production of the reader `syrup_read`
(digit, `[`, `(`, `l`, `{`, `d`, `<`, `F`, `D`, `f`, `t`, `#`); any other
leading byte reaches the final `else` branch. -/
def startsProduction (b : Nat) : Bool :=
  isDigitB b || b = 91 || b = 40 || b = 108 || b = 123 || b = 100 || b = 60 ||
    b = 70 || b = 68 || b = 102 || b = 116 || b = 35

/-- Bytes that can begin the encoding `syrup_encode` produces (a strict
subset of `startsProduction`: the encoder never begins a value with `(`,
`l`, `d` or `F`). -/
def isStarter (b : Nat) : Bool :=
  isDigitB b || b = 116 || b = 102 || b = 91 || b = 123 || b = 60 || b = 68 || b = 35

/-- Atom kind selected by each joiner byte in the digit loop. -/
def joinerTag : Nat → Option AtomTag
  | 58 => some .bstr
  | 34 => some .strAtom
  | 39 => some .symAtom
  | 43 => some .intPos
  | 45 => some .intNeg
  | _ => none


/-! ## Session-ID derivation (`utils/captp.py`, `CapTPSession.our_side_id`,
`their_side_id` and `id`; `utils/captp_types.py`,
`CapTPPublicKey.to_syrup_record`) -/

/-- UTF-8 bytes of an ASCII string literal. -/
def strB (s : String) : List Nat :=
  s.data.map (fun c => c.toNat)

/-- Model of `CapTPPublicKey.to_syrup_record` (`utils/captp_types.py`,
lines 66–78): the gcrypt s-expression
`(public-key (ecc (curve Ed25519) (flags eddsa) (q <raw key bytes>)))`,
whose lists are encoded as Syrup lists.  `q` is the raw public key. -/
def pubkey_to_syrup_record (q : List Nat) : Value :=
  .list [.sym (strB "public-key"),
    .list [.sym (strB "ecc"),
      .list [.sym (strB "curve"), .sym (strB "Ed25519")],
      .list [.sym (strB "flags"), .sym (strB "eddsa")],
      .list [.sym (strB "q"), .bytes q]]]

/-- Model of `CapTPPublicKey.to_syrup` (line 63–64). -/
def pubkey_to_syrup (q : List Nat) : List Nat :=
  syrup_encode (pubkey_to_syrup_record q)

/-- Model of `CapTPSession.our_side_id` / `their_side_id` (`utils/captp.py`,
lines 110–120): the double SHA-256 of the syrup-encoded public key.
`sha256` is an abstract parameter standing for `hashlib.sha256(...).digest()`. -/
def side_id (sha256 : List Nat → List Nat) (q : List Nat) : List Nat :=
  sha256 (sha256 (pubkey_to_syrup q))

/-- Model of the `CapTPSession.id` property (`utils/captp.py`, lines
122–143): compute both side ids, sort the two byte strings (Python
`list.sort` on `bytes` is byte-wise lexicographic), concatenate, prepend
`b"prot0"`, and double-SHA-256 the result. -/
def session_id (sha256 : List Nat → List Nat) (ourQ theirQ : List Nat) : List Nat :=
  let ours := side_id sha256 ourQ
  let theirs := side_id sha256 theirQ
  let lo := if ours ≤ theirs then ours else theirs
  let hi := if ours ≤ theirs then theirs else ours
  sha256 (sha256 (strB "prot0" ++ lo ++ hi))

/-! ## CapTP session driver (`utils/captp.py`) and the message shapes it
inspects (`utils/captp_types.py`) -/

/-- CapTP-level values appearing among the `args` of deliver messages,
after `maybe_decode_captp_type`: the descriptors the session driver
inspects plus the plain Syrup scalars used as heads and payloads. -/
inductive CVal where
  | int (n : Int)
  | str (s : String)
  | sym (s : String)
  | bytes (b : List Nat)
  | bool (b : Bool)
  | descExport (pos : Int)
  | descImportObject (pos : Int)
  | descImportPromise (pos : Int)
  | descAnswer (pos : Int)
  | descSigEnvelope (obj : CVal) (signature : List Nat)
  | descHandoffReceive (receivingSession : List Nat) (receivingSide : List Nat)
      (handoffCount : Int) (signedGive : CVal)
deriving DecidableEq

/-- Target of a deliver message: `DescExport` or `DescAnswer`. -/
inductive MsgTarget where
  | export (pos : Int)
  | answer (pos : Int)
deriving DecidableEq

/-- A resolve-me descriptor: `DescImportObject` or `DescImportPromise`. -/
inductive ResolveMe where
  | importObject (pos : Int)
  | importPromise (pos : Int)
deriving DecidableEq

/-- The CapTP operations the modelled session driver sends or receives.
`opStartSession` carries the version string, the peer public key (raw
bytes), the location as its Syrup record and the raw location
signature. -/
inductive Msg where
  | opStartSession (captpVersion : String) (sessionPubkey : List Nat)
      (locationRecord : Value) (locationSig : List Nat)
  | opDeliver (target : MsgTarget) (args : List CVal) (answerPos : Option Int)
      (resolveMeDesc : ResolveMe)
  | opDeliverOnly (target : MsgTarget) (args : List CVal)
  | opListen (target : Int) (resolveMeDesc : ResolveMe) (wantsPartial : Bool)
  | opAbort (reason : String)
  | opBootstrap (answerPos : Int) (resolveMeDesc : ResolveMe)

/-- Failures of the modelled session driver.  Python raises exceptions;
the model distinguishes them by constructor. -/
inductive SessionError where
  /-- Models `raise Exception("Received a handoff count ... already seen")`
  in `CapTPSession.receive_message` (`utils/captp.py`, line 105): a plain
  exception; no `op:abort` message is constructed or sent. -/
  | replayedHandoff
  /-- Models a failing `assert isinstance(..., OpStartSession)` or
  `assert message.args[0] in [fulfill, break]`. -/
  | assertionFailed
  /-- Model artefact: `receive_message` blocks forever because the peer
  sends nothing further (the modelled incoming stream is exhausted). -/
  | blocked
  /-- Models `message.args[1]` raising `IndexError`. -/
  | indexError
  /-- Models the `AttributeError` raised at `utils/captp.py` line 52:
  `setup_session` constructs its start op from `self.captp_version`, but
  `__init__` (lines 25–38) never assigns that attribute and no other code
  in the repository does (every caller passes the version as the method's
  *argument*, which the body ignores), so the read fails on every call. -/
  | attributeError
deriving DecidableEq

/-- Scan of `msg.args` in `CapTPSession.receive_message` (`utils/captp.py`,
lines 96–106): for each arg that is a `DescSigEnvelope` wrapping a
`DescHandoffReceive`, fail if its `handoff_count` was already seen,
otherwise insert it. -/
def scanHandoffCounts : List CVal → Finset Int → Except SessionError (Finset Int)
  | [], seen => .ok seen
  | arg :: rest, seen =>
      match arg with
      | .descSigEnvelope (.descHandoffReceive _ _ c _) _ =>
          if c ∈ seen then .error .replayedHandoff
          else scanHandoffCounts rest (insert c seen)
      | _ => scanHandoffCounts rest seen

/-- The handoff counts of the sig-envelope-wrapped handoff-receives among
a message's top-level args, in order. -/
def handoffCounts (args : List CVal) : List Int :=
  args.filterMap (fun arg =>
    match arg with
    | .descSigEnvelope (.descHandoffReceive _ _ c _) _ => some c
    | _ => none)

/-- Model of `CapTPSession.receive_message` (`utils/captp.py`, lines
87–108) acting on one incoming message: non-`op:deliver` messages pass
through unchanged; an `op:deliver` has its top-level args scanned for
handoff-receive envelopes against the `remote_seen_handoff_counts` set
(`seen`). -/
def receive_message (seen : Finset Int) (msg : Msg) :
    Except SessionError (Msg × Finset Int) :=
  match msg with
  | .opDeliver _ args _ _ =>
      match scanHandoffCounts args seen with
      | .error e => .error e
      | .ok seen2 => .ok (msg, seen2)
  | _ => .ok (msg, seen)

/-- Messages sent by `CapTPSession.receive_message`: its body contains no
`send_message` call, so it sends nothing on any input — in particular no
`op:abort` is emitted when a replayed handoff count is detected (the
function raises a plain exception instead). -/
def receive_message_sent (_seen : Finset Int) (_msg : Msg) : List Msg :=
  []

/-- One blocking `receive_message` on the modelled incoming stream. -/
def receive_from (seen : Finset Int) :
    List Msg → Except SessionError (Msg × Finset Int × List Msg)
  | [] => .error .blocked
  | m :: rest =>
      match receive_message seen m with
      | .error e => .error e
      | .ok (m2, seen2) => .ok (m2, seen2, rest)

/-- Result of a completed `setup_session`. -/
structure SetupResult where
  /-- `self.remote_public_key` after setup (the key of the *second*
  received `op:start-session`). -/
  remotePublicKey : List Nat
  /-- `start_session_op.captp_version` after setup: for an inbound session
  the code overwrites it with the version of the first received
  `op:start-session` (line 67). -/
  finalVersion : String
  /-- Messages sent during setup. -/
  sent : List Msg
  /-- `remote_seen_handoff_counts` after setup. -/
  seen : Finset Int
  /-- Remaining incoming stream. -/
  remaining : List Msg

/-- Model of `CapTPSession.setup_session` itself (`utils/captp.py`, lines
40–75): the body never gets past line 52.  Lines 42–50 generate a keypair
and sign the tagged location; line 52 then reads `self.captp_version` to
build the start op — an attribute never assigned anywhere in the
repository — so every call raises `AttributeError` there, before any
message is sent or received.  The remaining inputs mirror the state the
method touches up to that point (the keypair and signature of lines
42–50, the session's seen-counts and the incoming stream) and the ignored
`captp_version` method parameter. -/
def setup_session (_isOutbound : Bool) (_captpVersion : String) (_ourPubkey : List Nat)
    (_locationRecord : Value) (_locationSig : List Nat) (_seen : Finset Int)
    (_incoming : List Msg) : Except SessionError SetupResult :=
  .error .attributeError

/-- Messages sent by `CapTPSession.setup_session`: the `AttributeError` at
line 52 precedes the only send site (line 59), so nothing — in particular
no `op:abort` — is ever sent. -/
def setup_session_sent (_isOutbound : Bool) (_captpVersion : String) (_ourPubkey : List Nat)
    (_locationRecord : Value) (_locationSig : List Nat) (_seen : Finset Int)
    (_incoming : List Msg) : List Msg :=
  []

/-- Model of the continuation of `setup_session` from line 51 onward
(`utils/captp.py`, lines 51–75), taking as `captpVersion` the value the
`self.captp_version` read of line 52 was intended to produce — per the
method's own signature and every call site (`tests/*.py` all call
`setup_session(self.captp_version)`), the method's parameter.  This code
is unreachable in the staged source (the attribute read raises first);
the model states what the rest of the body does.  Key generation and
signing are abstracted into the inputs `ourPubkey` and `locationSig`.  If
outbound, the session sends its `op:start-session` and then receives; if
inbound it receives first, copies the peer's version into its own (never
sent) `op:start-session`, and sends nothing.  In both branches the code
then performs a second unconditional `receive_message`, asserts it is an
`op:start-session`, and overwrites `remote_public_key` with that second
key.  No captp-version comparison, no signature verification and no
`op:abort` occur anywhere in the function. -/
def setup_session_rest (isOutbound : Bool) (captpVersion : String) (ourPubkey : List Nat)
    (locationRecord : Value) (locationSig : List Nat) (seen : Finset Int)
    (incoming : List Msg) : Except SessionError SetupResult :=
  let startOp := Msg.opStartSession captpVersion ourPubkey locationRecord locationSig
  let sent : List Msg := if isOutbound then [startOp] else []
  match receive_from seen incoming with
  | .error e => .error e
  | .ok (m1, seen1, rest1) =>
      match m1 with
      | .opStartSession ver1 _pk1 _ _ =>
          let finalVersion := if isOutbound then captpVersion else ver1
          match receive_from seen1 rest1 with
          | .error e => .error e
          | .ok (m2, seen2, rest2) =>
              match m2 with
              | .opStartSession _ pk2 _ _ =>
                  .ok ⟨pk2, finalVersion, sent, seen2, rest2⟩
              | _ => .error .assertionFailed
      | _ => .error .assertionFailed

/-- Model of the `OpStartSession.valid` property (`utils/captp_types.py`,
lines 355–370): verify the location signature against the session public
key over the syrup encoding of the tagged record
`<my-location <location-record>>`.  `verify pk sig data` abstracts
`pk.verify(sig, data)` succeeding. -/
def opStartSession_valid (verify : List Nat → List Nat → List Nat → Bool)
    (sessionPubkey : List Nat) (locationRecord : Value) (locationSig : List Nat) : Bool :=
  verify sessionPubkey locationSig
    (syrup_encode (.record (.sym (strB "my-location")) [locationRecord]))

/-- Top-level args of a deliver / deliver-only message. -/
def msgArgs : Msg → List CVal
  | .opDeliver _ args _ _ => args
  | .opDeliverOnly _ args => args
  | _ => []

/-- Model of `CapTPSession.expect_message_to` composed with
`expect_message_type` (`utils/captp.py`, lines 205–231): receive (through
`receive_message`, so the handoff scan applies) until an `op:deliver` or
`op:deliver-only` addressed to `recipient` arrives; other messages are
discarded.  Timeout expiry is modelled by stream exhaustion. -/
def expect_message_to (seen : Finset Int) (recipient : MsgTarget) :
    List Msg → Except SessionError (Msg × Finset Int × List Msg)
  | [] => .error .blocked
  | m :: rest =>
      match receive_message seen m with
      | .error e => .error e
      | .ok (m2, seen2) =>
          match m2 with
          | .opDeliver t _ _ _ =>
              if t = recipient then .ok (m2, seen2, rest)
              else expect_message_to seen2 recipient rest
          | .opDeliverOnly t _ =>
              if t = recipient then .ok (m2, seen2, rest)
              else expect_message_to seen2 recipient rest
          | _ => expect_message_to seen2 recipient rest

/-- Result of `expect_promise_resolution`. -/
structure FollowResult where
  /-- The terminating message (a `break`, or a `fulfill` whose value is
  not an import promise). -/
  message : Msg
  /-- The `op:listen` messages sent while following the chain, in order. -/
  sent : List Msg
  /-- `_next_import_position` afterwards. -/
  nextImportPos : Int
  /-- `remote_seen_handoff_counts` afterwards. -/
  seen : Finset Int
  /-- Remaining incoming stream. -/
  remaining : List Msg

/-- Model of `CapTPSession.expect_promise_resolution` (`utils/captp.py`,
lines 233–261).  Reads messages addressed to `resolveMe`; asserts the head
argument is `fulfill` or `break`; returns on `break` or on a fulfilled
value that is not a `DescImportPromise`; otherwise sends
`op:listen(<promise as export>, <next import object>, wants_partial=True)`
and follows the new resolve-me descriptor (the export of the fresh import
object).  `fuel` bounds the number of loop iterations (the Python loop is
bounded by its timeout); one unit is consumed per received resolution. -/
def expect_promise_resolution (fuel : Nat) (seen : Finset Int) (nextImportPos : Int)
    (resolveMe : MsgTarget) (incoming : List Msg) : Except SessionError FollowResult :=
  match fuel with
  | 0 => .error .blocked
  | fuel + 1 =>
      match expect_message_to seen resolveMe incoming with
      | .error e => .error e
      | .ok (m, seen2, rest) =>
          match msgArgs m with
          | [] => .error .indexError
          | a0 :: args1 =>
              if a0 = CVal.sym "fulfill" ∨ a0 = CVal.sym "break" then
                if a0 = CVal.sym "break" then
                  .ok ⟨m, [], nextImportPos, seen2, rest⟩
                else
                  match args1 with
                  | [] => .error .indexError
                  | a1 :: _ =>
                      match a1 with
                      | .descImportPromise p =>
                          match expect_promise_resolution fuel seen2 (nextImportPos + 1)
                              (.export nextImportPos) rest with
                          | .error e => .error e
                          | .ok r =>
                              .ok ⟨r.message,
                                Msg.opListen p (.importObject nextImportPos) true :: r.sent,
                                r.nextImportPos, r.seen, r.remaining⟩
                      | _ => .ok ⟨m, [], nextImportPos, seen2, rest⟩
              else .error .assertionFailed

/-! ## OCapN URIs (`utils/ocapn_uris.py`, `OCapNNode`) -/

/-- Model of `OCapNNode`: a transport symbol, a designator/address string
and the hints mapping (a Python dict, i.e. an insertion-ordered
association list with distinct keys).  Python strings are `List Char`. -/
structure OCapNNode where
  transport : List Char
  address : List Char
  hints : List (List Char × List Char)
deriving DecidableEq

/-- Split a character list at every occurrence of `c` (Python
`str.split(c)`; the result is never empty). -/
def splitOnChar (c : Char) : List Char → List (List Char)
  | [] => [[]]
  | x :: xs =>
      let r := splitOnChar c xs
      if x = c then [] :: r
      else
        match r with
        | h :: t => (x :: h) :: t
        | [] => [[x]]

/-- Split a character list at the first occurrence of `c` (Python
`str.split(c, 1)`): the part before, and the part after when `c`
occurs. -/
def breakOnFirst (c : Char) : List Char → List Char × Option (List Char)
  | [] => ([], none)
  | x :: xs =>
      if x = c then ([], some xs)
      else
        let r := breakOnFirst c xs
        (x :: r.1, r.2)

/-- Python `str.rsplit(".", 1)` when unpacked into two names: split at the
last dot; `none` when there is no dot (unpacking then raises). -/
def rsplitDot (s : List Char) : Option (List Char × List Char) :=
  match breakOnFirst '.' s.reverse with
  | (_, none) => none
  | (revT, some revD) => some (revD.reverse, revT.reverse)

/-- Model of `urllib.parse.urlparse` restricted to the URI shapes handled
here, `scheme://netloc[?query]` with no path, params or fragment: returns
`(scheme, netloc, query)`. -/
def urlparse3 (s : List Char) : Option (List Char × List Char × List Char) :=
  match breakOnFirst ':' s with
  | (_, none) => none
  | (scheme, some rest) =>
      match rest with
      | '/' :: '/' :: r =>
          match breakOnFirst '?' r with
          | (netloc, none) => some (scheme, netloc, [])
          | (netloc, some q) => some (scheme, netloc, q)
      | _ => none

/-- Model of `urllib.parse.parse_qsl(query, strict_parsing=True)` (CPython
3.11): the empty query yields `[]`; otherwise each `&`-separated field
must contain `=` (split at the first `=`), else `ValueError`. -/
def parseQslStrict (q : List Char) : Option (List (List Char × List Char)) :=
  if q = [] then some []
  else
    (splitOnChar '&' q).mapM (fun field =>
      match breakOnFirst '=' field with
      | (_, none) => none
      | (k, some v) => some (k, v))

/-- Python `dict(pairs)`: insertion order, later values overwrite earlier
ones under the same key in place. -/
def pyDict (pairs : List (List Char × List Char)) : List (List Char × List Char) :=
  pairs.foldl (fun acc kv =>
    if acc.any (fun p => p.1 = kv.1) then
      acc.map (fun p => if p.1 = kv.1 then (p.1, kv.2) else p)
    else acc ++ [kv]) []

/-- Model of `urllib.parse.urlencode(hints, doseq=True)` for keys and
values needing no percent-escaping: `k=v` pairs joined with `&`. -/
def urlencodeSimple (hints : List (List Char × List Char)) : List Char :=
  List.intercalate ['&'] (hints.map (fun kv => kv.1 ++ '=' :: kv.2))

/-- Model of `OCapNNode.from_uri` (`utils/ocapn_uris.py`, lines 40–47):
parse the URI, require scheme `ocapn`, parse the query strictly into the
hints, and split the netloc at its last dot into designator and
transport. -/
def OCapNNode.from_uri (s : List Char) : Option OCapNNode :=
  match urlparse3 s with
  | none => none
  | some (scheme, netloc, query) =>
      if scheme = "ocapn".data then
        match parseQslStrict query with
        | none => none
        | some hints =>
            match rsplitDot netloc with
            | none => none
            | some (designator, transport) =>
                some ⟨transport, designator, pyDict hints⟩
      else none

/-- Model of `OCapNNode.to_uri` (`utils/ocapn_uris.py`, lines 61–63):
`urlunparse(("ocapn", address, "", "", query, ""))` where the query is the
urlencoded hints (empty for an empty hints dict).  Note the netloc is the
bare `address`: the transport is *not* appended. -/
def OCapNNode.to_uri (n : OCapNNode) : List Char :=
  let query := if n.hints.isEmpty then [] else urlencodeSimple n.hints
  "ocapn://".data ++ n.address ++ (if query.isEmpty then [] else '?' :: query)

/-! ## Lemmas about decimal digits -/

theorem decDigitsAux_eq_digits : ∀ (f n : Nat), n ≤ f → decDigitsAux f n = Nat.digits 10 n := by
  intro f
  induction f with
  | zero => intro n hn; interval_cases n; simp [decDigitsAux]
  | succ f ih =>
      intro n hn
      match n with
      | 0 => simp [decDigitsAux]
      | n + 1 =>
          rw [decDigitsAux, Nat.digits_def' (by norm_num : (1 : Nat) < 10) (Nat.succ_pos n)]
          rw [ih ((n + 1) / 10) (by
            have := Nat.div_lt_self (Nat.succ_pos n) (by norm_num : (1 : Nat) < 10)
            omega)]

theorem decDigits_eq_digits (n : Nat) : decDigits n = Nat.digits 10 n :=
  decDigitsAux_eq_digits n n le_rfl

theorem foldl_reverse_digits (L : List Nat) :
    (L.reverse).foldl (fun a d => a * 10 + d) 0 = Nat.ofDigits 10 L := by
  rw [List.foldl_reverse]
  induction L with
  | nil => simp
  | cons d L ih =>
      simp only [List.foldr_cons, ih, Nat.ofDigits_cons]
      ring

theorem digitsVal_map_shift (L : List Nat) :
    digitsVal (L.map (fun d => d + 48)) = L.foldl (fun a d => a * 10 + d) 0 := by
  unfold digitsVal
  rw [List.foldl_map]
  congr 1

theorem digitsVal_decimalDigits (n : Nat) : digitsVal (decimalDigits n) = n := by
  unfold decimalDigits
  rw [digitsVal_map_shift ((decDigits n).reverse), foldl_reverse_digits, decDigits_eq_digits,
    Nat.ofDigits_digits]

theorem digitsVal_decimalOf (n : Nat) : digitsVal (decimalOf n) = n := by
  unfold decimalOf
  split
  · simp [digitsVal]; omega
  · exact digitsVal_decimalDigits n

theorem decimalDigits_digits {n d : Nat} (h : d ∈ decimalDigits n) : isDigitB d = true := by
  unfold decimalDigits at h
  simp [decDigits_eq_digits] at h
  obtain ⟨e, he, rfl⟩ := h
  have := Nat.digits_lt_base (by norm_num : (1 : Nat) < 10) he
  simp [isDigitB]
  omega

theorem decimalOf_digits {n d : Nat} (h : d ∈ decimalOf n) : isDigitB d = true := by
  unfold decimalOf at h
  split at h
  · simp at h; subst h; decide
  · exact decimalDigits_digits h

theorem decimalDigits_ne_nil {n : Nat} (h : n ≠ 0) : decimalDigits n ≠ [] := by
  unfold decimalDigits
  simp [decDigits_eq_digits, Nat.digits_ne_nil_iff_ne_zero, h]

theorem decimalOf_ne_nil (n : Nat) : decimalOf n ≠ [] := by
  unfold decimalOf
  split
  · simp
  · exact decimalDigits_ne_nil (by assumption)

theorem decimalOf_head (n : Nat) :
    ∃ d ds, decimalOf n = d :: ds ∧ isDigitB d = true := by
  match h : decimalOf n with
  | [] => exact absurd h (decimalOf_ne_nil n)
  | d :: ds =>
      refine ⟨d, ds, rfl, decimalOf_digits (n := n) ?_⟩
      rw [h]; exact List.mem_cons_self d ds

theorem decimalDigits_head {n : Nat} (h : n ≠ 0) :
    ∃ d ds, decimalDigits n = d :: ds ∧ isDigitB d = true := by
  have : decimalOf n = decimalDigits n := by unfold decimalOf; simp [h]
  rw [← this]
  exact decimalOf_head n

/-! ## The digit-accumulation loop -/

theorem readDigitsLoop_join {j : Nat} {tag : AtomTag} (hj : joinerTag j = some tag)
    (acc rest : List Nat) : readDigitsLoop acc (j :: rest) = .ok (tag, acc, rest) := by
  have hj58 : j = 58 ∨ j = 34 ∨ j = 39 ∨ j = 43 ∨ j = 45 := by
    by_cases h1 : j = 58
    · exact Or.inl h1
    by_cases h2 : j = 34
    · exact Or.inr (Or.inl h2)
    by_cases h3 : j = 39
    · exact Or.inr (Or.inr (Or.inl h3))
    by_cases h4 : j = 43
    · exact Or.inr (Or.inr (Or.inr (Or.inl h4)))
    by_cases h5 : j = 45
    · exact Or.inr (Or.inr (Or.inr (Or.inr h5)))
    exfalso
    rw [show joinerTag j = none by
      unfold joinerTag
      split <;> first | rfl | omega] at hj
    exact Option.noConfusion hj
  rcases hj58 with rfl | rfl | rfl | rfl | rfl <;>
    simp only [joinerTag] at hj <;>
    cases hj <;>
    simp [readDigitsLoop]

theorem readDigitsLoop_spec {ds : List Nat} (hds : ∀ d ∈ ds, isDigitB d = true)
    {j : Nat} {tag : AtomTag} (hj : joinerTag j = some tag) :
    ∀ (acc rest : List Nat),
      readDigitsLoop acc (ds ++ j :: rest) = .ok (tag, acc ++ ds, rest) := by
  induction ds with
  | nil =>
      intro acc rest
      simpa using readDigitsLoop_join hj acc rest
  | cons d ds ih =>
      intro acc rest
      have hd : isDigitB d = true := hds d (List.mem_cons_self d ds)
      have hd' : 48 ≤ d ∧ d ≤ 57 := by simpa [isDigitB] using hd
      have step : readDigitsLoop acc (d :: (ds ++ j :: rest)) =
          readDigitsLoop (acc ++ [d]) (ds ++ j :: rest) := by
        conv_lhs => rw [readDigitsLoop]
        rw [if_neg (by omega), if_neg (by omega), if_neg (by omega), if_neg (by omega),
          if_neg (by omega), if_pos hd]
      rw [List.cons_append, step, ih (fun e he => hds e (List.mem_cons_of_mem d he))]
      simp

/-! ## Leading bytes of encodings -/

theorem starter_facts {b : Nat} (h : isStarter b = true) :
    isWs b = false ∧ b ≠ 93 ∧ b ≠ 41 ∧ b ≠ 101 ∧ b ≠ 125 ∧ b ≠ 62 ∧ b ≠ 36 := by
  simp only [isStarter, isDigitB, Bool.or_eq_true, decide_eq_true_eq, Bool.and_eq_true] at h
  simp only [isWs, Bool.or_eq_false_iff, decide_eq_false_iff_not, ne_eq]
  omega

theorem starter_startsProduction {b : Nat} (h : isStarter b = true) :
    startsProduction b = true := by
  simp only [isStarter, Bool.or_eq_true] at h
  simp only [startsProduction, Bool.or_eq_true]
  tauto

theorem syrup_encode_head (v : Value) :
    ∃ b t, syrup_encode v = b :: t ∧ isStarter b = true := by
  match v with
  | .int n =>
      by_cases h0 : n = 0
      · subst h0; exact ⟨48, [43], by simp [syrup_encode], by decide⟩
      by_cases hpos : 0 < n
      · obtain ⟨d, ds, hd, hdig⟩ := decimalDigits_head (n := n.toNat) (by omega)
        refine ⟨d, ds ++ [43], ?_, by simp [isStarter, hdig]⟩
        simp [syrup_encode, h0, hpos, hd]
      · obtain ⟨d, ds, hd, hdig⟩ := decimalDigits_head (n := (-n).toNat) (by omega)
        refine ⟨d, ds ++ [45], ?_, by simp [isStarter, hdig]⟩
        simp [syrup_encode, h0, hpos, hd]
  | .bytes b =>
      obtain ⟨d, ds, hd, hdig⟩ := decimalOf_head b.length
      exact ⟨d, ds ++ 58 :: b, by simp [syrup_encode, netstring_encode, hd],
        by simp [isStarter, hdig]⟩
  | .str s =>
      obtain ⟨d, ds, hd, hdig⟩ := decimalOf_head s.length
      exact ⟨d, ds ++ 34 :: s, by simp [syrup_encode, netstring_encode, hd],
        by simp [isStarter, hdig]⟩
  | .sym s =>
      obtain ⟨d, ds, hd, hdig⟩ := decimalOf_head s.length
      exact ⟨d, ds ++ 39 :: s, by simp [syrup_encode, netstring_encode, hd],
        by simp [isStarter, hdig]⟩
  | .bool true => exact ⟨116, [], by simp [syrup_encode], by decide⟩
  | .bool false => exact ⟨102, [], by simp [syrup_encode], by decide⟩
  | .double bits => exact ⟨68, bits, by simp [syrup_encode], by decide⟩
  | .list xs => exact ⟨91, encodeItems xs ++ [93], by simp [syrup_encode], by decide⟩
  | .dict kvs =>
      exact ⟨123, ((List.insertionSort keyLe (encodePairs kvs)).map
        (fun p => p.1 ++ p.2)).flatten ++ [125], by simp [syrup_encode], by decide⟩
  | .set xs =>
      exact ⟨35, (List.insertionSort bytesLe (encodeItems2 xs)).flatten ++ [36],
        by simp [syrup_encode], by decide⟩
  | .record label args =>
      exact ⟨60, (syrup_encode label ++ encodeItems args) ++ [62],
        by simp [syrup_encode], by decide⟩

theorem syrup_encode_ne_nil (v : Value) : syrup_encode v ≠ [] := by
  obtain ⟨b, t, h, _⟩ := syrup_encode_head v
  simp [h]

theorem syrup_encode_length_pos (v : Value) : 1 ≤ (syrup_encode v).length := by
  obtain ⟨b, t, h, _⟩ := syrup_encode_head v
  simp [h]

/-! ## Unfolding the mutual encoder helpers -/

theorem encodeItems_eq_map (xs : List Value) :
    encodeItems xs = (xs.map syrup_encode).flatten := by
  induction xs with
  | nil => simp [encodeItems]
  | cons x xs ih => simp [encodeItems, ih]

theorem encodeItems2_eq_map (xs : List Value) :
    encodeItems2 xs = xs.map syrup_encode := by
  induction xs with
  | nil => simp [encodeItems2]
  | cons x xs ih => simp [encodeItems2, ih]

theorem encodePairs_eq_map (kvs : List (Value × Value)) :
    encodePairs kvs = kvs.map (fun kv => (syrup_encode kv.1, syrup_encode kv.2)) := by
  induction kvs with
  | nil => simp [encodePairs]
  | cons kv kvs ih =>
      obtain ⟨k, v⟩ := kv
      simp [encodePairs, ih]

theorem keyEncs_eq_fst (kvs : List (Value × Value)) :
    keyEncs kvs = (encodePairs kvs).map Prod.fst := by
  rw [encodePairs_eq_map, List.map_map, keyEncs]
  rfl

/-! ## Canonicity helpers -/

theorem canonItems_mem {xs : List Value} (h : canonItems xs = true) :
    ∀ x ∈ xs, canonical x = true := by
  induction xs with
  | nil => intro x hx; cases hx
  | cons y ys ih =>
      rw [canonItems, Bool.and_eq_true] at h
      intro x hx
      rcases List.mem_cons.mp hx with rfl | hx
      · exact h.1
      · exact ih h.2 x hx

theorem canonPairs_mem {kvs : List (Value × Value)} (h : canonPairs kvs = true) :
    ∀ kv ∈ kvs, canonical kv.1 = true ∧ canonical kv.2 = true := by
  induction kvs with
  | nil => intro kv hkv; cases hkv
  | cons p ps ih =>
      obtain ⟨k, v⟩ := p
      rw [canonPairs, Bool.and_eq_true, Bool.and_eq_true] at h
      intro kv hkv
      rcases List.mem_cons.mp hkv with rfl | hkv
      · exact ⟨h.1.1, h.1.2⟩
      · exact ih h.2 kv hkv

/-! ## Sortedness of canonical containers -/

theorem sortedStrictLt_pairwise : ∀ {L : List (List Nat)}, sortedStrictLt L = true →
    L.Pairwise (fun a b => a < b)
  | [], _ => List.Pairwise.nil
  | [a], _ => by simp
  | a :: b :: t, h => by
      rw [sortedStrictLt, Bool.and_eq_true, decide_eq_true_eq] at h
      have hp := sortedStrictLt_pairwise h.2
      refine List.Pairwise.cons ?_ hp
      intro c hc
      rcases List.mem_cons.mp hc with rfl | hc
      · exact h.1
      · exact lt_trans h.1 (List.rel_of_pairwise_cons hp hc)

theorem sortedStrictLt_sorted_le {L : List (List Nat)} (h : sortedStrictLt L = true) :
    L.Sorted bytesLe :=
  (sortedStrictLt_pairwise h).imp (fun hab => le_of_lt hab)

theorem canonical_dict_sorted {kvs : List (Value × Value)}
    (h : sortedStrictLt (keyEncs kvs) = true) :
    (encodePairs kvs).Sorted keyLe := by
  have hp := (sortedStrictLt_pairwise h).imp (fun hab => le_of_lt hab)
  rw [keyEncs_eq_fst] at hp
  rw [List.pairwise_map] at hp
  exact hp

theorem canonical_dict_encode {kvs : List (Value × Value)}
    (h : sortedStrictLt (keyEncs kvs) = true) :
    syrup_encode (.dict kvs) =
      123 :: (kvs.map (fun kv => syrup_encode kv.1 ++ syrup_encode kv.2)).flatten ++ [125] := by
  rw [show syrup_encode (.dict kvs) =
      123 :: ((List.insertionSort keyLe (encodePairs kvs)).map
        (fun p => p.1 ++ p.2)).flatten ++ [125] from rfl]
  rw [List.Sorted.insertionSort_eq (canonical_dict_sorted h)]
  rw [encodePairs_eq_map, List.map_map]
  rfl

theorem canonical_set_encode {xs : List Value}
    (h : sortedStrictLt (encodeItems2 xs) = true) :
    syrup_encode (.set xs) = 35 :: encodeItems xs ++ [36] := by
  rw [show syrup_encode (.set xs) =
      35 :: (List.insertionSort bytesLe (encodeItems2 xs)).flatten ++ [36] from rfl]
  rw [List.Sorted.insertionSort_eq (sortedStrictLt_sorted_le h)]
  rw [encodeItems2_eq_map, ← encodeItems_eq_map]

/-! ## Fuel bounds: the encoding of a value is at least as long as the fuel
the reader needs to decode it -/

theorem fneedItems_le_of (xs : List Value)
    (h : ∀ x ∈ xs, fneed x ≤ (syrup_encode x).length) :
    fneedItems xs ≤ 1 + (encodeItems xs).length := by
  induction xs with
  | nil => simp [fneedItems, encodeItems]
  | cons x xs ih =>
      have hx := h x (List.mem_cons_self x xs)
      have hxs := ih (fun y hy => h y (List.mem_cons_of_mem x hy))
      have hpos := syrup_encode_length_pos x
      rw [fneedItems, encodeItems, List.length_append]
      refine Nat.add_le_add_left (Nat.max_le.mpr ⟨by omega, by omega⟩) 1

theorem fneedPairs_le_of (kvs : List (Value × Value))
    (h : ∀ kv ∈ kvs, fneed kv.1 ≤ (syrup_encode kv.1).length ∧
      fneed kv.2 ≤ (syrup_encode kv.2).length) :
    fneedPairs kvs ≤
      1 + ((kvs.map (fun kv => syrup_encode kv.1 ++ syrup_encode kv.2)).flatten).length := by
  induction kvs with
  | nil => simp [fneedPairs]
  | cons kv kvs ih =>
      obtain ⟨k, v⟩ := kv
      have hk := (h (k, v) (List.mem_cons_self _ _)).1
      have hv := (h (k, v) (List.mem_cons_self _ _)).2
      dsimp only at hk hv
      have hrest := ih (fun p hp => h p (List.mem_cons_of_mem _ hp))
      have hposk := syrup_encode_length_pos k
      have hposv := syrup_encode_length_pos v
      rw [fneedPairs, List.map_cons, List.flatten_cons, List.length_append, List.length_append]
      dsimp only
      refine Nat.add_le_add_left (Nat.max_le.mpr ⟨by omega, Nat.max_le.mpr ⟨by omega, by omega⟩⟩) 1

theorem fneed_le_sized :
    ∀ (N : Nat) (v : Value), sizeOf v ≤ N → canonical v = true →
      fneed v ≤ (syrup_encode v).length := by
  intro N
  induction N using Nat.strong_induction_on with
  | _ N ih =>
      intro v hN hc
      match v with
      | .int n => exact le_trans (by rw [fneed]) (syrup_encode_length_pos _)
      | .bytes b => exact le_trans (by rw [fneed]) (syrup_encode_length_pos _)
      | .str s => exact le_trans (by rw [fneed]) (syrup_encode_length_pos _)
      | .sym s => exact le_trans (by rw [fneed]) (syrup_encode_length_pos _)
      | .bool b => exact le_trans (by rw [fneed]) (syrup_encode_length_pos _)
      | .double bits => exact le_trans (by rw [fneed]) (syrup_encode_length_pos _)
      | .list xs =>
          rw [canonical] at hc
          have hitems : ∀ x ∈ xs, fneed x ≤ (syrup_encode x).length := by
            intro x hx
            have hlt : sizeOf x < sizeOf (Value.list xs) := by
              have := List.sizeOf_lt_of_mem hx
              simp only [Value.list.sizeOf_spec]
              omega
            exact ih (sizeOf x) (by omega) x le_rfl (canonItems_mem hc x hx)
          have := fneedItems_le_of xs hitems
          rw [fneed]
          simp only [syrup_encode, List.length_cons, List.length_append, List.length_cons,
            List.length_nil]
          omega
      | .record label args =>
          rw [canonical, Bool.and_eq_true] at hc
          have hlab : fneed label ≤ (syrup_encode label).length := by
            have hlt : sizeOf label < sizeOf (Value.record label args) := by
              simp only [Value.record.sizeOf_spec]
              omega
            exact ih (sizeOf label) (by omega) label le_rfl hc.1
          have hitems : ∀ x ∈ args, fneed x ≤ (syrup_encode x).length := by
            intro x hx
            have hlt : sizeOf x < sizeOf (Value.record label args) := by
              have := List.sizeOf_lt_of_mem hx
              simp only [Value.record.sizeOf_spec]
              omega
            exact ih (sizeOf x) (by omega) x le_rfl (canonItems_mem hc.2 x hx)
          have hargs := fneedItems_le_of args hitems
          rw [fneed]
          simp only [syrup_encode, List.length_cons, List.length_append, List.length_cons,
            List.length_nil]
          omega
      | .dict kvs =>
          rw [canonical, Bool.and_eq_true] at hc
          have hpairs : ∀ kv ∈ kvs, fneed kv.1 ≤ (syrup_encode kv.1).length ∧
              fneed kv.2 ≤ (syrup_encode kv.2).length := by
            intro kv hkv
            have hmem := canonPairs_mem hc.2 kv hkv
            have hsz := List.sizeOf_lt_of_mem hkv
            have hsz1 : sizeOf kv.1 < sizeOf (Value.dict kvs) := by
              obtain ⟨k, v⟩ := kv
              simp only [Prod.mk.sizeOf_spec] at hsz
              simp only [Value.dict.sizeOf_spec]
              omega
            have hsz2 : sizeOf kv.2 < sizeOf (Value.dict kvs) := by
              obtain ⟨k, v⟩ := kv
              simp only [Prod.mk.sizeOf_spec] at hsz
              simp only [Value.dict.sizeOf_spec]
              omega
            exact ⟨ih (sizeOf kv.1) (by omega) kv.1 le_rfl hmem.1,
              ih (sizeOf kv.2) (by omega) kv.2 le_rfl hmem.2⟩
          have := fneedPairs_le_of kvs hpairs
          rw [fneed, canonical_dict_encode hc.1]
          simp only [List.length_cons, List.length_append, List.length_nil]
          omega
      | .set xs =>
          rw [canonical, Bool.and_eq_true] at hc
          have hitems : ∀ x ∈ xs, fneed x ≤ (syrup_encode x).length := by
            intro x hx
            have hlt : sizeOf x < sizeOf (Value.set xs) := by
              have := List.sizeOf_lt_of_mem hx
              simp only [Value.set.sizeOf_spec]
              omega
            exact ih (sizeOf x) (by omega) x le_rfl (canonItems_mem hc.2 x hx)
          have := fneedItems_le_of xs hitems
          rw [fneed, canonical_set_encode hc.1]
          simp only [List.length_cons, List.length_append, List.length_nil]
          omega

theorem fneed_le {v : Value} (hc : canonical v = true) :
    fneed v ≤ (syrup_encode v).length :=
  fneed_le_sized (sizeOf v) v le_rfl hc

/-! ## One-step behaviour of the reader on each leading byte -/

theorem readValue_step_digit {d : Nat} (hd : isDigitB d = true)
    (cs : Bool) (conv : List Nat → List Nat) (g : Nat) (L : List Nat) :
    readValue cs conv (g + 1) (d :: L) =
      match readDigitsLoop [] (d :: L) with
      | .error e => .error e
      | .ok (tag, ds, rest2) =>
          match tag with
          | .intPos => .ok (.int ((digitsVal ds : Nat) : Int), rest2)
          | .intNeg => .ok (.int (-((digitsVal ds : Nat) : Int)), rest2)
          | .bstr => .ok (.bytes (rest2.take (digitsVal ds)), rest2.drop (digitsVal ds))
          | .strAtom => .ok (.str (rest2.take (digitsVal ds)), rest2.drop (digitsVal ds))
          | .symAtom => .ok (.sym (rest2.take (digitsVal ds)), rest2.drop (digitsVal ds)) := by
  have hd' : 48 ≤ d ∧ d ≤ 57 := by simpa [isDigitB] using hd
  have hws : isWs d = false := by simp [isWs]; omega
  rw [readValue, List.dropWhile_cons, if_neg (by simp [hws])]
  dsimp only
  rw [if_pos hd]

theorem readValue_step_91 (cs : Bool) (conv : List Nat → List Nat) (g : Nat) (L : List Nat) :
    readValue cs conv (g + 1) (91 :: L) =
      match readListItems cs conv g L with
      | .error e => .error e
      | .ok (xs, rest2) => .ok (.list xs, rest2) := rfl

theorem readValue_step_123 (cs : Bool) (conv : List Nat → List Nat) (g : Nat) (L : List Nat) :
    readValue cs conv (g + 1) (123 :: L) =
      match readDictItems cs conv g L with
      | .error e => .error e
      | .ok (kvs, rest2) => .ok (.dict kvs, rest2) := rfl

theorem readValue_step_60 (cs : Bool) (conv : List Nat → List Nat) (g : Nat) (L : List Nat) :
    readValue cs conv (g + 1) (60 :: L) =
      match readValue cs conv g L with
      | .error e => .error e
      | .ok (label, rest2) =>
          match readRecordArgs cs conv g rest2 with
          | .error e => .error e
          | .ok (args, rest3) => .ok (.record label args, rest3) := rfl

theorem readValue_step_70 (cs : Bool) (conv : List Nat → List Nat) (g : Nat) (L : List Nat) :
    readValue cs conv (g + 1) (70 :: L) =
      (if cs then
        if 4 ≤ L.length then .ok (.double (conv (L.take 4)), L.drop 4)
        else .error .structError
      else .error .singleFloatsNotSupported) := rfl

theorem readValue_step_68 (cs : Bool) (conv : List Nat → List Nat) (g : Nat) (L : List Nat) :
    readValue cs conv (g + 1) (68 :: L) =
      (if 8 ≤ L.length then .ok (.double (L.take 8), L.drop 8)
       else .error .structError) := rfl

theorem readValue_step_102 (cs : Bool) (conv : List Nat → List Nat) (g : Nat) (L : List Nat) :
    readValue cs conv (g + 1) (102 :: L) = .ok (.bool false, L) := rfl

theorem readValue_step_116 (cs : Bool) (conv : List Nat → List Nat) (g : Nat) (L : List Nat) :
    readValue cs conv (g + 1) (116 :: L) = .ok (.bool true, L) := rfl

theorem readValue_step_35 (cs : Bool) (conv : List Nat → List Nat) (g : Nat) (L : List Nat) :
    readValue cs conv (g + 1) (35 :: L) =
      match readSetItems cs conv g L with
      | .error e => .error e
      | .ok (xs, rest2) => .ok (.set xs, rest2) := rfl

/-! ## The reader inverts the encoder: container loops -/

theorem readListItems_encode (cs : Bool) (conv : List Nat → List Nat) :
    ∀ (xs : List Value),
      (∀ x ∈ xs, ∀ (fuel : Nat) (rest : List Nat), fneed x ≤ fuel →
        readValue cs conv fuel (syrup_encode x ++ rest) = .ok (x, rest)) →
      ∀ (fuel : Nat) (rest : List Nat), fneedItems xs ≤ fuel →
        readListItems cs conv fuel (encodeItems xs ++ 93 :: rest) = .ok (xs, rest) := by
  intro xs
  induction xs with
  | nil =>
      intro _ fuel rest hf
      obtain ⟨g, rfl⟩ : ∃ g, fuel = g + 1 := ⟨fuel - 1, by rw [fneedItems] at hf; omega⟩
      simp [encodeItems, readListItems]
  | cons x xs ih =>
      intro IH fuel rest hf
      obtain ⟨g, rfl⟩ : ∃ g, fuel = g + 1 := ⟨fuel - 1, by rw [fneedItems] at hf; omega⟩
      rw [fneedItems] at hf
      obtain ⟨b, t, hb, hst⟩ := syrup_encode_head x
      obtain ⟨hws, h93, h41, h101, -, -, -⟩ := starter_facts hst
      have hstream : encodeItems (x :: xs) ++ 93 :: rest =
          b :: (t ++ (encodeItems xs ++ 93 :: rest)) := by
        rw [encodeItems, hb]
        simp
      rw [hstream, readListItems, if_neg (by simp [h93, h41, h101])]
      have hx : readValue cs conv g (syrup_encode x ++ (encodeItems xs ++ 93 :: rest)) =
          .ok (x, encodeItems xs ++ 93 :: rest) :=
        IH x (List.mem_cons_self x xs) g _ (by omega)
      rw [hb] at hx
      simp only [List.cons_append, List.append_assoc] at hx
      rw [hx]
      dsimp only
      rw [ih (fun y hy => IH y (List.mem_cons_of_mem x hy)) g rest (by omega)]

theorem readSetItems_encode (cs : Bool) (conv : List Nat → List Nat) :
    ∀ (xs : List Value),
      (∀ x ∈ xs, ∀ (fuel : Nat) (rest : List Nat), fneed x ≤ fuel →
        readValue cs conv fuel (syrup_encode x ++ rest) = .ok (x, rest)) →
      ∀ (fuel : Nat) (rest : List Nat), fneedItems xs ≤ fuel →
        readSetItems cs conv fuel (encodeItems xs ++ 36 :: rest) = .ok (xs, rest) := by
  intro xs
  induction xs with
  | nil =>
      intro _ fuel rest hf
      obtain ⟨g, rfl⟩ : ∃ g, fuel = g + 1 := ⟨fuel - 1, by rw [fneedItems] at hf; omega⟩
      simp [encodeItems, readSetItems]
  | cons x xs ih =>
      intro IH fuel rest hf
      obtain ⟨g, rfl⟩ : ∃ g, fuel = g + 1 := ⟨fuel - 1, by rw [fneedItems] at hf; omega⟩
      rw [fneedItems] at hf
      obtain ⟨b, t, hb, hst⟩ := syrup_encode_head x
      obtain ⟨hws, -, -, -, -, -, h36⟩ := starter_facts hst
      have hstream : encodeItems (x :: xs) ++ 36 :: rest =
          b :: (t ++ (encodeItems xs ++ 36 :: rest)) := by
        rw [encodeItems, hb]
        simp
      rw [hstream, readSetItems, if_neg (by simp [h36])]
      have hx : readValue cs conv g (syrup_encode x ++ (encodeItems xs ++ 36 :: rest)) =
          .ok (x, encodeItems xs ++ 36 :: rest) :=
        IH x (List.mem_cons_self x xs) g _ (by omega)
      rw [hb] at hx
      simp only [List.cons_append, List.append_assoc] at hx
      rw [hx]
      dsimp only
      rw [ih (fun y hy => IH y (List.mem_cons_of_mem x hy)) g rest (by omega)]

theorem readRecordArgs_encode (cs : Bool) (conv : List Nat → List Nat) :
    ∀ (xs : List Value),
      (∀ x ∈ xs, ∀ (fuel : Nat) (rest : List Nat), fneed x ≤ fuel →
        readValue cs conv fuel (syrup_encode x ++ rest) = .ok (x, rest)) →
      ∀ (fuel : Nat) (rest : List Nat), fneedItems xs ≤ fuel →
        readRecordArgs cs conv fuel (encodeItems xs ++ 62 :: rest) = .ok (xs, rest) := by
  intro xs
  induction xs with
  | nil =>
      intro _ fuel rest hf
      obtain ⟨g, rfl⟩ : ∃ g, fuel = g + 1 := ⟨fuel - 1, by rw [fneedItems] at hf; omega⟩
      simp [encodeItems, readRecordArgs]
  | cons x xs ih =>
      intro IH fuel rest hf
      obtain ⟨g, rfl⟩ : ∃ g, fuel = g + 1 := ⟨fuel - 1, by rw [fneedItems] at hf; omega⟩
      rw [fneedItems] at hf
      obtain ⟨b, t, hb, hst⟩ := syrup_encode_head x
      obtain ⟨hws, -, -, -, -, h62, -⟩ := starter_facts hst
      have hstream : encodeItems (x :: xs) ++ 62 :: rest =
          b :: (t ++ (encodeItems xs ++ 62 :: rest)) := by
        rw [encodeItems, hb]
        simp
      rw [hstream, readRecordArgs, if_neg (by simp [h62])]
      have hx : readValue cs conv g (syrup_encode x ++ (encodeItems xs ++ 62 :: rest)) =
          .ok (x, encodeItems xs ++ 62 :: rest) :=
        IH x (List.mem_cons_self x xs) g _ (by omega)
      rw [hb] at hx
      simp only [List.cons_append, List.append_assoc] at hx
      rw [hx]
      dsimp only
      rw [ih (fun y hy => IH y (List.mem_cons_of_mem x hy)) g rest (by omega)]

theorem readDictItems_encode (cs : Bool) (conv : List Nat → List Nat) :
    ∀ (kvs : List (Value × Value)),
      (∀ kv ∈ kvs, (∀ (fuel : Nat) (rest : List Nat), fneed kv.1 ≤ fuel →
          readValue cs conv fuel (syrup_encode kv.1 ++ rest) = .ok (kv.1, rest)) ∧
        (∀ (fuel : Nat) (rest : List Nat), fneed kv.2 ≤ fuel →
          readValue cs conv fuel (syrup_encode kv.2 ++ rest) = .ok (kv.2, rest))) →
      ∀ (fuel : Nat) (rest : List Nat), fneedPairs kvs ≤ fuel →
        readDictItems cs conv fuel
          ((kvs.map (fun kv => syrup_encode kv.1 ++ syrup_encode kv.2)).flatten ++ 125 :: rest) =
          .ok (kvs, rest) := by
  intro kvs
  induction kvs with
  | nil =>
      intro _ fuel rest hf
      obtain ⟨g, rfl⟩ : ∃ g, fuel = g + 1 := ⟨fuel - 1, by rw [fneedPairs] at hf; omega⟩
      simp [readDictItems]
  | cons kv kvs ih =>
      obtain ⟨k, v⟩ := kv
      intro IH fuel rest hf
      obtain ⟨g, rfl⟩ : ∃ g, fuel = g + 1 := ⟨fuel - 1, by rw [fneedPairs] at hf; omega⟩
      rw [fneedPairs] at hf
      obtain ⟨b, t, hb, hst⟩ := syrup_encode_head k
      obtain ⟨hws, -, -, h101, h125, -, -⟩ := starter_facts hst
      have hstream :
          (((k, v) :: kvs).map (fun kv => syrup_encode kv.1 ++ syrup_encode kv.2)).flatten ++
            125 :: rest =
          b :: (t ++ (syrup_encode v ++
            ((kvs.map (fun kv => syrup_encode kv.1 ++ syrup_encode kv.2)).flatten ++
              125 :: rest))) := by
        rw [List.map_cons, List.flatten_cons]
        dsimp only
        rw [hb]
        simp
      rw [hstream, readDictItems, if_neg (by simp [h125, h101])]
      have hk : readValue cs conv g (syrup_encode k ++ (syrup_encode v ++
          ((kvs.map (fun kv => syrup_encode kv.1 ++ syrup_encode kv.2)).flatten ++
            125 :: rest))) =
          .ok (k, syrup_encode v ++
            ((kvs.map (fun kv => syrup_encode kv.1 ++ syrup_encode kv.2)).flatten ++
              125 :: rest)) :=
        (IH (k, v) (List.mem_cons_self _ _)).1 g _ (by dsimp only; omega)
      rw [hb] at hk
      simp only [List.cons_append, List.append_assoc] at hk
      rw [hk]
      dsimp only
      have hv := (IH (k, v) (List.mem_cons_self _ _)).2 g
        ((kvs.map (fun kv => syrup_encode kv.1 ++ syrup_encode kv.2)).flatten ++ 125 :: rest)
        (by dsimp only; omega)
      rw [hv]
      dsimp only
      rw [ih (fun p hp => IH p (List.mem_cons_of_mem _ hp)) g rest (by omega)]

/-! ## The reader inverts the encoder: atoms and the main theorem -/

theorem readValue_digits_atom (cs : Bool) (conv : List Nat → List Nat) (g : Nat)
    {ds : List Nat} (hds : ∀ d ∈ ds, isDigitB d = true) (hne : ds ≠ [])
    {j : Nat} {tag : AtomTag} (hj : joinerTag j = some tag) (L : List Nat) :
    readValue cs conv (g + 1) (ds ++ j :: L) =
      (match tag with
       | .intPos => .ok (.int ((digitsVal ds : Nat) : Int), L)
       | .intNeg => .ok (.int (-((digitsVal ds : Nat) : Int)), L)
       | .bstr => .ok (.bytes (L.take (digitsVal ds)), L.drop (digitsVal ds))
       | .strAtom => .ok (.str (L.take (digitsVal ds)), L.drop (digitsVal ds))
       | .symAtom => .ok (.sym (L.take (digitsVal ds)), L.drop (digitsVal ds))) := by
  match ds, hne with
  | d :: ds2, _ =>
      have hd := hds d (List.mem_cons_self d ds2)
      rw [List.cons_append, readValue_step_digit hd, ← List.cons_append,
        readDigitsLoop_spec hds hj [] L]
      simp only [List.nil_append]
      cases tag <;> rfl

theorem readValue_encode_sized :
    ∀ (N : Nat) (v : Value), sizeOf v ≤ N → canonical v = true →
      ∀ (cs : Bool) (conv : List Nat → List Nat) (fuel : Nat) (rest : List Nat),
        fneed v ≤ fuel →
        readValue cs conv fuel (syrup_encode v ++ rest) = .ok (v, rest) := by
  intro N
  induction N using Nat.strong_induction_on with
  | _ N ihN =>
      intro v hN hc cs conv fuel rest hf
      obtain ⟨g, rfl⟩ : ∃ g, fuel = g + 1 := ⟨fuel - 1, by
        have : 1 ≤ fneed v := by cases v <;> rw [fneed] <;> omega
        omega⟩
      match v, hc with
      | .int n, _ =>
          by_cases h0 : n = 0
          · subst h0
            have hstream : syrup_encode (Value.int 0) ++ rest = [48] ++ 43 :: rest := by
              simp [syrup_encode]
            rw [hstream, readValue_digits_atom cs conv g (by decide) (by decide)
              (show joinerTag 43 = some AtomTag.intPos from rfl) rest]
            rfl
          by_cases hpos : 0 < n
          · have hstream : syrup_encode (Value.int n) ++ rest =
                decimalDigits n.toNat ++ 43 :: rest := by
              simp [syrup_encode, h0, hpos]
            rw [hstream, readValue_digits_atom cs conv g
              (fun d hd => decimalDigits_digits hd)
              (decimalDigits_ne_nil (n := n.toNat) (by omega))
              (show joinerTag 43 = some AtomTag.intPos from rfl) rest]
            dsimp only
            rw [digitsVal_decimalDigits, Int.toNat_of_nonneg (le_of_lt hpos)]
          · have hstream : syrup_encode (Value.int n) ++ rest =
                decimalDigits (-n).toNat ++ 45 :: rest := by
              simp [syrup_encode, h0, hpos]
            rw [hstream, readValue_digits_atom cs conv g
              (fun d hd => decimalDigits_digits hd)
              (decimalDigits_ne_nil (n := (-n).toNat) (by omega))
              (show joinerTag 45 = some AtomTag.intNeg from rfl) rest]
            dsimp only
            rw [digitsVal_decimalDigits,
              Int.toNat_of_nonneg (by omega : (0 : Int) ≤ -n), neg_neg]
      | .bytes b, _ =>
          have hstream : syrup_encode (Value.bytes b) ++ rest =
              decimalOf b.length ++ 58 :: (b ++ rest) := by
            simp [syrup_encode, netstring_encode]
          rw [hstream, readValue_digits_atom cs conv g
            (fun d hd => decimalOf_digits hd) (decimalOf_ne_nil _)
            (show joinerTag 58 = some AtomTag.bstr from rfl) (b ++ rest)]
          dsimp only
          rw [digitsVal_decimalOf, List.take_left, List.drop_left]
      | .str s, _ =>
          have hstream : syrup_encode (Value.str s) ++ rest =
              decimalOf s.length ++ 34 :: (s ++ rest) := by
            simp [syrup_encode, netstring_encode]
          rw [hstream, readValue_digits_atom cs conv g
            (fun d hd => decimalOf_digits hd) (decimalOf_ne_nil _)
            (show joinerTag 34 = some AtomTag.strAtom from rfl) (s ++ rest)]
          dsimp only
          rw [digitsVal_decimalOf, List.take_left, List.drop_left]
      | .sym s, _ =>
          have hstream : syrup_encode (Value.sym s) ++ rest =
              decimalOf s.length ++ 39 :: (s ++ rest) := by
            simp [syrup_encode, netstring_encode]
          rw [hstream, readValue_digits_atom cs conv g
            (fun d hd => decimalOf_digits hd) (decimalOf_ne_nil _)
            (show joinerTag 39 = some AtomTag.symAtom from rfl) (s ++ rest)]
          dsimp only
          rw [digitsVal_decimalOf, List.take_left, List.drop_left]
      | .bool true, _ =>
          rw [show syrup_encode (Value.bool true) ++ rest = 116 :: rest by simp [syrup_encode]]
          rw [readValue_step_116]
      | .bool false, _ =>
          rw [show syrup_encode (Value.bool false) ++ rest = 102 :: rest by simp [syrup_encode]]
          rw [readValue_step_102]
      | .double bits, hc =>
          have hlen : bits.length = 8 := by
            rw [canonical] at hc
            simpa using hc
          rw [show syrup_encode (Value.double bits) ++ rest = 68 :: (bits ++ rest) by
            simp [syrup_encode]]
          rw [readValue_step_68, if_pos (by simp [hlen])]
          rw [show (bits ++ rest).take 8 = bits by rw [← hlen]; exact List.take_left bits rest]
          rw [show (bits ++ rest).drop 8 = rest by rw [← hlen]; exact List.drop_left bits rest]
      | .list xs, hc =>
          rw [canonical] at hc
          have IH : ∀ x ∈ xs, ∀ (fuel2 : Nat) (rest2 : List Nat), fneed x ≤ fuel2 →
              readValue cs conv fuel2 (syrup_encode x ++ rest2) = .ok (x, rest2) := by
            intro x hx fuel2 rest2 hf2
            have hsz : sizeOf x < sizeOf (Value.list xs) := by
              have := List.sizeOf_lt_of_mem hx
              simp only [Value.list.sizeOf_spec]
              omega
            exact ihN (sizeOf x) (by omega) x le_rfl (canonItems_mem hc x hx) cs conv fuel2
              rest2 hf2
          rw [show syrup_encode (Value.list xs) ++ rest =
              91 :: (encodeItems xs ++ 93 :: rest) by simp [syrup_encode]]
          rw [readValue_step_91]
          rw [readListItems_encode cs conv xs IH g rest (by rw [fneed] at hf; omega)]
      | .set xs, hc =>
          rw [canonical, Bool.and_eq_true] at hc
          have IH : ∀ x ∈ xs, ∀ (fuel2 : Nat) (rest2 : List Nat), fneed x ≤ fuel2 →
              readValue cs conv fuel2 (syrup_encode x ++ rest2) = .ok (x, rest2) := by
            intro x hx fuel2 rest2 hf2
            have hsz : sizeOf x < sizeOf (Value.set xs) := by
              have := List.sizeOf_lt_of_mem hx
              simp only [Value.set.sizeOf_spec]
              omega
            exact ihN (sizeOf x) (by omega) x le_rfl (canonItems_mem hc.2 x hx) cs conv fuel2
              rest2 hf2
          rw [show syrup_encode (Value.set xs) ++ rest =
              35 :: (encodeItems xs ++ 36 :: rest) by
            rw [canonical_set_encode hc.1]; simp]
          rw [readValue_step_35]
          rw [readSetItems_encode cs conv xs IH g rest (by rw [fneed] at hf; omega)]
      | .record label args, hc =>
          rw [canonical, Bool.and_eq_true] at hc
          have IHlabel : ∀ (fuel2 : Nat) (rest2 : List Nat), fneed label ≤ fuel2 →
              readValue cs conv fuel2 (syrup_encode label ++ rest2) = .ok (label, rest2) := by
            intro fuel2 rest2 hf2
            have hsz : sizeOf label < sizeOf (Value.record label args) := by
              simp only [Value.record.sizeOf_spec]
              omega
            exact ihN (sizeOf label) (by omega) label le_rfl hc.1 cs conv fuel2 rest2 hf2
          have IHargs : ∀ x ∈ args, ∀ (fuel2 : Nat) (rest2 : List Nat), fneed x ≤ fuel2 →
              readValue cs conv fuel2 (syrup_encode x ++ rest2) = .ok (x, rest2) := by
            intro x hx fuel2 rest2 hf2
            have hsz : sizeOf x < sizeOf (Value.record label args) := by
              have := List.sizeOf_lt_of_mem hx
              simp only [Value.record.sizeOf_spec]
              omega
            exact ihN (sizeOf x) (by omega) x le_rfl (canonItems_mem hc.2 x hx) cs conv fuel2
              rest2 hf2
          rw [fneed] at hf
          rw [show syrup_encode (Value.record label args) ++ rest =
              60 :: (syrup_encode label ++ (encodeItems args ++ 62 :: rest)) by
            simp [syrup_encode]]
          rw [readValue_step_60]
          rw [IHlabel g (encodeItems args ++ 62 :: rest) (by omega)]
          dsimp only
          rw [readRecordArgs_encode cs conv args IHargs g rest (by omega)]
      | .dict kvs, hc =>
          rw [canonical, Bool.and_eq_true] at hc
          have IH : ∀ kv ∈ kvs,
              (∀ (fuel2 : Nat) (rest2 : List Nat), fneed kv.1 ≤ fuel2 →
                readValue cs conv fuel2 (syrup_encode kv.1 ++ rest2) = .ok (kv.1, rest2)) ∧
              (∀ (fuel2 : Nat) (rest2 : List Nat), fneed kv.2 ≤ fuel2 →
                readValue cs conv fuel2 (syrup_encode kv.2 ++ rest2) = .ok (kv.2, rest2)) := by
            intro kv hkv
            have hmem := canonPairs_mem hc.2 kv hkv
            have hsz := List.sizeOf_lt_of_mem hkv
            have hsz1 : sizeOf kv.1 < sizeOf (Value.dict kvs) := by
              obtain ⟨k, v⟩ := kv
              simp only [Prod.mk.sizeOf_spec] at hsz
              simp only [Value.dict.sizeOf_spec]
              omega
            have hsz2 : sizeOf kv.2 < sizeOf (Value.dict kvs) := by
              obtain ⟨k, v⟩ := kv
              simp only [Prod.mk.sizeOf_spec] at hsz
              simp only [Value.dict.sizeOf_spec]
              omega
            exact ⟨fun fuel2 rest2 hf2 => ihN (sizeOf kv.1) (by omega) kv.1 le_rfl hmem.1
                cs conv fuel2 rest2 hf2,
              fun fuel2 rest2 hf2 => ihN (sizeOf kv.2) (by omega) kv.2 le_rfl hmem.2
                cs conv fuel2 rest2 hf2⟩
          rw [show syrup_encode (Value.dict kvs) ++ rest =
              123 :: ((kvs.map (fun kv => syrup_encode kv.1 ++ syrup_encode kv.2)).flatten ++
                125 :: rest) by
            rw [canonical_dict_encode hc.1]; simp]
          rw [readValue_step_123]
          rw [readDictItems_encode cs conv kvs IH g rest (by rw [fneed] at hf; omega)]

theorem readValue_encode {v : Value} (hc : canonical v = true)
    (cs : Bool) (conv : List Nat → List Nat) {fuel : Nat} (hf : fneed v ≤ fuel)
    (rest : List Nat) :
    readValue cs conv fuel (syrup_encode v ++ rest) = .ok (v, rest) :=
  readValue_encode_sized (sizeOf v) v le_rfl hc cs conv fuel rest hf

theorem syrup_read_encode {v : Value} (hc : canonical v = true)
    (cs : Bool) (conv : List Nat → List Nat) :
    syrup_read cs conv (syrup_encode v) = .ok (v, []) := by
  unfold syrup_read
  have hfe : fneed v ≤ (syrup_encode v).length + 1 :=
    le_trans (fneed_le hc) (Nat.le_succ _)
  have h := readValue_encode hc cs conv hfe []
  rw [List.append_nil] at h
  exact h

/-- C1: decoding an encoding yields the original value: for every Syrup
value in the modelled universe (in canonical form, the unique
representative of its Python `==`-class), `syrup_decode(syrup_encode(v))`
returns `v` exactly, leaving no residue and holding for every
single-float coercion. -/
theorem C1_syrup_roundtrip (v : Value) (hc : canonical v = true)
    (conv : List Nat → List Nat) :
    syrup_decode false conv (syrup_encode v) = .ok v := by
  unfold syrup_decode
  rw [syrup_read_encode hc false conv]

/-- C1 witness: a concrete canonical value exercising every constructor
round-trips. -/
theorem C1_syrup_roundtrip_witness :
    canonical (Value.record (.sym [97, 98])
      [.int 42, .int (-7), .bytes [0, 255], .str [104, 105], .bool true, .bool false,
        .double [64, 9, 33, 251, 84, 68, 45, 24], .list [.int 0],
        .dict [(.sym [97], .int 2), (.int 1, .bool true)], .set [.int 1, .int 2]]) = true ∧
    syrup_decode false (fun b => b)
      (syrup_encode (Value.record (.sym [97, 98])
        [.int 42, .int (-7), .bytes [0, 255], .str [104, 105], .bool true, .bool false,
          .double [64, 9, 33, 251, 84, 68, 45, 24], .list [.int 0],
          .dict [(.sym [97], .int 2), (.int 1, .bool true)], .set [.int 1, .int 2]])) =
      .ok (Value.record (.sym [97, 98])
        [.int 42, .int (-7), .bytes [0, 255], .str [104, 105], .bool true, .bool false,
          .double [64, 9, 33, 251, 84, 68, 45, 24], .list [.int 0],
          .dict [(.sym [97], .int 2), (.int 1, .bool true)], .set [.int 1, .int 2]]) :=
  ⟨by decide, C1_syrup_roundtrip _ (by decide) (fun b => b)⟩

/-! ## Canonical container ordering (dictionaries and sets) -/

theorem perm_nodup_fst_eq :
    ∀ {l1 l2 : List (List Nat × List Nat)}, List.Perm l1 l2 →
      l1.map Prod.fst = l2.map Prod.fst → (l1.map Prod.fst).Nodup → l1 = l2 := by
  intro l1
  induction l1 with
  | nil =>
      intro l2 hp _ _
      exact (List.Perm.nil_eq hp).symm ▸ rfl
  | cons a l1 ih =>
      intro l2 hp hk hnd
      match l2 with
      | [] => exact absurd hp (by simp)
      | b :: l2 =>
          have hab1 : a.1 = b.1 := by
            simpa using congrArg List.head? hk
          have hmem : a ∈ b :: l2 := hp.mem_iff.mp (List.mem_cons_self a l1)
          have hab : a = b := by
            rcases List.mem_cons.mp hmem with h | h
            · exact h
            · exfalso
              have : a.1 ∈ l2.map Prod.fst := List.mem_map_of_mem Prod.fst h
              have hnd2 : (b.1 :: l2.map Prod.fst).Nodup := by
                rw [← List.map_cons, ← hk]
                exact hnd
              rw [← hab1] at hnd2
              exact (List.nodup_cons.mp hnd2).1 this
          subst hab
          have hp2 : List.Perm l1 l2 := hp.cons_inv
          have hk2 : l1.map Prod.fst = l2.map Prod.fst := by
            simpa using congrArg List.tail hk
          have hnd2 : (l1.map Prod.fst).Nodup := by
            rw [List.map_cons] at hnd
            exact (List.nodup_cons.mp hnd).2
          rw [ih hp2 hk2 hnd2]

theorem insertionSort_keyLe_eq_of_perm {kvs kvs2 : List (Value × Value)}
    (hp : List.Perm kvs kvs2) (hnd : (keyEncs kvs).Nodup) :
    List.insertionSort keyLe (encodePairs kvs) =
      List.insertionSort keyLe (encodePairs kvs2) := by
  have hpe : List.Perm (encodePairs kvs) (encodePairs kvs2) := by
    rw [encodePairs_eq_map, encodePairs_eq_map]
    exact hp.map _
  have hps : List.Perm (List.insertionSort keyLe (encodePairs kvs))
      (List.insertionSort keyLe (encodePairs kvs2)) :=
    ((List.perm_insertionSort keyLe _).trans hpe).trans
      (List.perm_insertionSort keyLe _).symm
  have hs1 : ((List.insertionSort keyLe (encodePairs kvs)).map Prod.fst).Sorted bytesLe := by
    have := List.sorted_insertionSort keyLe (encodePairs kvs)
    rw [List.Sorted, List.pairwise_map]
    exact this.imp (fun h => h)
  have hs2 : ((List.insertionSort keyLe (encodePairs kvs2)).map Prod.fst).Sorted bytesLe := by
    have := List.sorted_insertionSort keyLe (encodePairs kvs2)
    rw [List.Sorted, List.pairwise_map]
    exact this.imp (fun h => h)
  have hkp : List.Perm ((List.insertionSort keyLe (encodePairs kvs)).map Prod.fst)
      ((List.insertionSort keyLe (encodePairs kvs2)).map Prod.fst) := hps.map _
  have hkeq : (List.insertionSort keyLe (encodePairs kvs)).map Prod.fst =
      (List.insertionSort keyLe (encodePairs kvs2)).map Prod.fst :=
    List.eq_of_perm_of_sorted hkp hs1 hs2
  have hnd1 : ((List.insertionSort keyLe (encodePairs kvs)).map Prod.fst).Nodup := by
    have hperm : List.Perm ((List.insertionSort keyLe (encodePairs kvs)).map Prod.fst)
        ((encodePairs kvs).map Prod.fst) := (List.perm_insertionSort keyLe _).map _
    rw [hperm.nodup_iff, ← keyEncs_eq_fst]
    exact hnd
  exact perm_nodup_fst_eq hps hkeq hnd1

/-- C4: canonical container ordering.  (1) A dictionary is emitted as a
sorted permutation of its encoded entries: the bytes between braces are
the concatenation, over a permutation `ps` of the encoded
`(key, value)` pairs that is sorted by byte-wise lexicographic order of
the encoded key, of each encoded key immediately followed by its encoded
value; and two dictionaries that are equal as key-value collections
(permutations with distinct encoded keys) have equal encodings.  (2) A
set is emitted as the sorted permutation of its encoded elements, and two
equal sets (permutations) have equal encodings. -/
theorem C4_canonical_ordering :
    (∀ kvs : List (Value × Value),
      ∃ ps : List (List Nat × List Nat),
        List.Perm ps (kvs.map (fun kv => (syrup_encode kv.1, syrup_encode kv.2))) ∧
        ps.Sorted keyLe ∧
        syrup_encode (.dict kvs) = 123 :: (ps.map (fun p => p.1 ++ p.2)).flatten ++ [125]) ∧
    (∀ kvs kvs2 : List (Value × Value), List.Perm kvs kvs2 → (keyEncs kvs).Nodup →
      syrup_encode (.dict kvs) = syrup_encode (.dict kvs2)) ∧
    (∀ xs : List Value,
      ∃ es : List (List Nat),
        List.Perm es (xs.map syrup_encode) ∧ es.Sorted bytesLe ∧
        syrup_encode (.set xs) = 35 :: es.flatten ++ [36]) ∧
    (∀ xs xs2 : List Value, List.Perm xs xs2 →
      syrup_encode (.set xs) = syrup_encode (.set xs2)) := by
  refine ⟨?_, ?_, ?_, ?_⟩
  · intro kvs
    refine ⟨List.insertionSort keyLe (encodePairs kvs), ?_, ?_, rfl⟩
    · rw [← encodePairs_eq_map]
      exact List.perm_insertionSort keyLe _
    · exact List.sorted_insertionSort keyLe _
  · intro kvs kvs2 hp hnd
    rw [show syrup_encode (.dict kvs) =
        123 :: ((List.insertionSort keyLe (encodePairs kvs)).map
          (fun p => p.1 ++ p.2)).flatten ++ [125] from rfl,
      show syrup_encode (.dict kvs2) =
        123 :: ((List.insertionSort keyLe (encodePairs kvs2)).map
          (fun p => p.1 ++ p.2)).flatten ++ [125] from rfl,
      insertionSort_keyLe_eq_of_perm hp hnd]
  · intro xs
    refine ⟨List.insertionSort bytesLe (encodeItems2 xs), ?_, ?_, rfl⟩
    · rw [← encodeItems2_eq_map]
      exact List.perm_insertionSort bytesLe _
    · exact List.sorted_insertionSort bytesLe _
  · intro xs xs2 hp
    have hpe : List.Perm (encodeItems2 xs) (encodeItems2 xs2) := by
      rw [encodeItems2_eq_map, encodeItems2_eq_map]
      exact hp.map _
    have : List.insertionSort bytesLe (encodeItems2 xs) =
        List.insertionSort bytesLe (encodeItems2 xs2) :=
      List.eq_of_perm_of_sorted
        (((List.perm_insertionSort bytesLe _).trans hpe).trans
          (List.perm_insertionSort bytesLe _).symm)
        (List.sorted_insertionSort bytesLe _) (List.sorted_insertionSort bytesLe _)
    rw [show syrup_encode (.set xs) =
        35 :: (List.insertionSort bytesLe (encodeItems2 xs)).flatten ++ [36] from rfl,
      show syrup_encode (.set xs2) =
        35 :: (List.insertionSort bytesLe (encodeItems2 xs2)).flatten ++ [36] from rfl,
      this]

/-- C4 witness: two orderings of a two-entry dictionary and of a two-element
set produce identical (sorted) encodings. -/
theorem C4_canonical_ordering_witness :
    ((keyEncs [(Value.int 1, Value.bool true), (Value.sym [97], Value.int 2)]).Nodup ∧
      syrup_encode (.dict [(Value.int 1, Value.bool true), (Value.sym [97], Value.int 2)]) =
        syrup_encode (.dict [(Value.sym [97], Value.int 2), (Value.int 1, Value.bool true)])) ∧
    syrup_encode (.set [Value.int 2, Value.int 1]) =
      syrup_encode (.set [Value.int 1, Value.int 2]) :=
  ⟨⟨by decide,
    C4_canonical_ordering.2.1 _ _ (List.Perm.swap _ _ _) (by decide)⟩,
    C4_canonical_ordering.2.2.2 _ _ (List.Perm.swap _ _ _)⟩

/-! ## Unknown leading bytes and the reserved single-float tag -/

theorem dropWhile_ws_lead {w : List Nat} (hw : ∀ c ∈ w, isWs c = true)
    {b : Nat} (hb : isWs b = false) (rest : List Nat) :
    List.dropWhile (fun c => isWs c) (w ++ b :: rest) = b :: rest := by
  induction w with
  | nil => simp [List.dropWhile_cons, hb]
  | cons c w ih =>
      rw [List.cons_append, List.dropWhile_cons,
        if_pos (by simp [hw c (List.mem_cons_self c w)])]
      exact ih (fun d hd => hw d (List.mem_cons_of_mem c hd))

/-- C8: `syrup_read` reaches its final `else` branch — and raises the
encode-side exception `SyrupEncodeError` (`contrib/syrup.py`, lines
257–260) — whenever the first non-whitespace byte of the input starts no
production of the grammar.  The claim (and the spec) call for a
decode-side error here; the source raises `SyrupEncodeError` instead. -/
theorem C8_unknown_tag_error (cs : Bool) (conv : List Nat → List Nat)
    (w : List Nat) (b : Nat) (rest : List Nat)
    (hw : ∀ c ∈ w, isWs c = true) (hb : isWs b = false)
    (hsp : startsProduction b = false) :
    syrup_decode cs conv (w ++ b :: rest) = .error .syrupEncodeError := by
  have h : isDigitB b = false ∧ b ≠ 91 ∧ b ≠ 40 ∧ b ≠ 108 ∧ b ≠ 123 ∧ b ≠ 100 ∧
      b ≠ 60 ∧ b ≠ 70 ∧ b ≠ 68 ∧ b ≠ 102 ∧ b ≠ 116 ∧ b ≠ 35 := by
    simpa [startsProduction, not_or, and_assoc] using hsp
  obtain ⟨h1, h2, h3, h4, h5, h6, h7, h8, h9, h10, h11, h12⟩ := h
  have hr : syrup_read cs conv (w ++ b :: rest) = .error .syrupEncodeError := by
    unfold syrup_read
    rw [readValue, dropWhile_ws_lead hw hb]
    dsimp only
    rw [if_neg (by simp [h1]), if_neg (by simp [h2, h3, h4]), if_neg (by simp [h5, h6]),
      if_neg (by simp [h7]), if_neg (by simp [h8]), if_neg (by simp [h9]),
      if_neg (by simp [h10]), if_neg (by simp [h11]), if_neg (by simp [h12])]
  unfold syrup_decode
  rw [hr]

/-- C8 witness: decoding an input whose first non-whitespace byte is `q`
(0x71, starting no production) raises the encode-side error. -/
theorem C8_unknown_tag_error_witness :
    syrup_decode false (fun x => x) ([32] ++ 113 :: []) = .error .syrupEncodeError :=
  C8_unknown_tag_error false (fun x => x) [32] 113 [] (by decide) (by decide) (by decide)

theorem starter_ne_70 {b : Nat} (h : isStarter b = true) : b ≠ 70 := by
  simp only [isStarter, isDigitB, Bool.or_eq_true, decide_eq_true_eq, Bool.and_eq_true] at h
  omega

/-- C9: single-precision handling.  With `convert_singles = False`,
`syrup_read` on input starting with tag `F` raises
`SyrupSingleFloatsNotSupported` (having consumed nothing: the tag is only
peeked before the raise); with `convert_singles = True` it consumes the tag
plus exactly 4 payload bytes and returns the single-to-double coercion
`conv` of those 4 bytes as the double value; and the encoder never begins
an encoding with the byte `F`. -/
theorem C9_single_float (conv : List Nat → List Nat) :
    (∀ rest : List Nat,
      syrup_read false conv (70 :: rest) = .error .singleFloatsNotSupported) ∧
    (∀ (b0 b1 b2 b3 : Nat) (rest : List Nat),
      syrup_read true conv (70 :: b0 :: b1 :: b2 :: b3 :: rest) =
        .ok (.double (conv [b0, b1, b2, b3]), rest)) ∧
    (∀ v : Value, (syrup_encode v).head? ≠ some 70) := by
  refine ⟨?_, ?_, ?_⟩
  · intro rest
    unfold syrup_read
    rw [List.length_cons, readValue_step_70]
    simp
  · intro b0 b1 b2 b3 rest
    unfold syrup_read
    rw [List.length_cons, readValue_step_70]
    rw [if_pos rfl, if_pos (by simp)]
    simp
  · intro v
    obtain ⟨b, t, hbt, hst⟩ := syrup_encode_head v
    rw [hbt]
    simp [starter_ne_70 hst]

/-! ## Session-ID symmetry -/

/-- C2: session-ID derivation and symmetry.  Each side id is the double
SHA-256 of the syrup-encoded public-key record; the two side ids are
sorted byte-wise into `(lo, hi)` with `lo ≤ hi`; the session id is the
double SHA-256 of `"prot0" ++ lo ++ hi`; and the whole derivation is
symmetric in the two keys, so both parties compute the same id.  This
holds for every hash function `sha256`, in particular the real one. -/
theorem C2_session_id (sha256 : List Nat → List Nat) (ourQ theirQ : List Nat) :
    session_id sha256 ourQ theirQ = session_id sha256 theirQ ourQ ∧
    (∃ lo hi, ((lo = side_id sha256 ourQ ∧ hi = side_id sha256 theirQ) ∨
        (lo = side_id sha256 theirQ ∧ hi = side_id sha256 ourQ)) ∧
      lo ≤ hi ∧
      session_id sha256 ourQ theirQ = sha256 (sha256 (strB "prot0" ++ lo ++ hi))) ∧
    side_id sha256 ourQ = sha256 (sha256 (syrup_encode (pubkey_to_syrup_record ourQ))) := by
  refine ⟨?_, ?_, rfl⟩
  · simp only [session_id]
    by_cases h : side_id sha256 ourQ ≤ side_id sha256 theirQ
    · rw [if_pos h, if_pos h]
      by_cases h2 : side_id sha256 theirQ ≤ side_id sha256 ourQ
      · rw [if_pos h2, if_pos h2, le_antisymm h h2]
      · rw [if_neg h2, if_neg h2]
    · rw [if_neg h, if_neg h, if_pos (le_of_lt (not_le.mp h)),
        if_pos (le_of_lt (not_le.mp h))]
  · simp only [session_id]
    by_cases h : side_id sha256 ourQ ≤ side_id sha256 theirQ
    · exact ⟨side_id sha256 ourQ, side_id sha256 theirQ, Or.inl ⟨rfl, rfl⟩, h,
        by rw [if_pos h, if_pos h]⟩
    · exact ⟨side_id sha256 theirQ, side_id sha256 ourQ, Or.inr ⟨rfl, rfl⟩,
        le_of_lt (not_le.mp h), by rw [if_neg h, if_neg h]⟩

/-! ## Handshake acceptance (`setup_session`) -/

/-- C3 counterexample: a concrete outbound handshake in which the peer's
captp-version differs from ours and the peer's location signature does not
verify (witnessed by the all-rejecting verifier).  The claim demands that
`setup_session` then immediately send `op:abort(reason)` and move to
Aborted; instead the call fails with the `AttributeError` of line 52
(reading the never-assigned `self.captp_version`) before any message
exchange, and nothing — in particular no `op:abort` — is sent.  (It
likewise never *accepts* a session, even one the claim's conditions would
admit.) -/
theorem C3_counterexample :
    setup_session true "1.0" [1] (.sym (strB "loc")) [9] ∅
        [Msg.opStartSession "2.0" [5] (.sym (strB "loc")) [7],
         Msg.opStartSession "2.0" [6] (.sym (strB "loc")) [7]] = .error .attributeError ∧
    setup_session_sent true "1.0" [1] (.sym (strB "loc")) [9] ∅
        [Msg.opStartSession "2.0" [5] (.sym (strB "loc")) [7],
         Msg.opStartSession "2.0" [6] (.sym (strB "loc")) [7]] = [] ∧
    opStartSession_valid (fun _ _ _ => false) [5] (.sym (strB "loc")) [7] = false ∧
    ("2.0" : String) ≠ "1.0" :=
  ⟨rfl, rfl, rfl, by decide⟩

/-- C3 amended: `setup_session` never accepts a session and never sends
`op:abort`: every call fails with `AttributeError` at line 52 (the
never-assigned `self.captp_version`) before any message is sent or
received, regardless of the incoming messages, their captp-versions or
their location signatures.  No captp-version comparison and no signature
verification exist anywhere in the body; the signature check of the claim
exists only as the never-called `OpStartSession.valid`, which computes
`verify` of the signature against the syrup encoding of the tagged record
`<my-location <location>>`. -/
theorem C3_amended (isOutbound : Bool) (v : String) (pk : List Nat) (loc : Value)
    (sig : List Nat) (seen : Finset Int) (incoming : List Msg)
    (pk1 : List Nat) (loc1 : Value) (sig1 : List Nat) :
    setup_session isOutbound v pk loc sig seen incoming = .error .attributeError ∧
    setup_session_sent isOutbound v pk loc sig seen incoming = [] ∧
    (∀ verify : List Nat → List Nat → List Nat → Bool,
      opStartSession_valid verify pk1 loc1 sig1 =
        verify pk1 sig1 (syrup_encode (.record (.sym (strB "my-location")) [loc1]))) :=
  ⟨rfl, rfl, fun _ => rfl⟩

/-! ## The received-handoff replay guard -/

theorem scanHandoffCounts_ok (args : List CVal) :
    ∀ seen : Finset Int, (handoffCounts args).Nodup →
      (∀ c ∈ handoffCounts args, c ∉ seen) →
      scanHandoffCounts args seen = .ok (seen ∪ (handoffCounts args).toFinset) := by
  induction args with
  | nil =>
      intro seen _ _
      simp [scanHandoffCounts, handoffCounts]
  | cons arg rest ih =>
      intro seen hnd hdisj
      match arg with
      | .descSigEnvelope (.descHandoffReceive rs rside c sg) sigb =>
          have hcounts : handoffCounts (CVal.descSigEnvelope
              (.descHandoffReceive rs rside c sg) sigb :: rest) = c :: handoffCounts rest := by
            simp [handoffCounts]
          rw [hcounts] at hnd hdisj
          have hc : c ∉ seen := hdisj c (List.mem_cons_self _ _)
          rw [scanHandoffCounts, if_neg hc]
          rw [ih (insert c seen) (List.Nodup.of_cons hnd) ?side]
          case side =>
            intro d hd
            simp only [Finset.mem_insert, not_or]
            exact ⟨fun hdc => (List.nodup_cons.mp hnd).1 (hdc ▸ hd),
              hdisj d (List.mem_cons_of_mem _ hd)⟩
          rw [hcounts]
          congr 1
          ext x
          simp only [Finset.mem_union, Finset.mem_insert, List.toFinset_cons, List.mem_toFinset]
          tauto
      | .int n => exact ih seen hnd hdisj
      | .str st => exact ih seen hnd hdisj
      | .sym st => exact ih seen hnd hdisj
      | .bytes bb => exact ih seen hnd hdisj
      | .bool bb => exact ih seen hnd hdisj
      | .descExport p => exact ih seen hnd hdisj
      | .descImportObject p => exact ih seen hnd hdisj
      | .descImportPromise p => exact ih seen hnd hdisj
      | .descAnswer p => exact ih seen hnd hdisj
      | .descHandoffReceive rs rside c sg => exact ih seen hnd hdisj
      | .descSigEnvelope (.int n) sigb => exact ih seen hnd hdisj
      | .descSigEnvelope (.str st) sigb => exact ih seen hnd hdisj
      | .descSigEnvelope (.sym st) sigb => exact ih seen hnd hdisj
      | .descSigEnvelope (.bytes bb) sigb => exact ih seen hnd hdisj
      | .descSigEnvelope (.bool bb) sigb => exact ih seen hnd hdisj
      | .descSigEnvelope (.descExport p) sigb => exact ih seen hnd hdisj
      | .descSigEnvelope (.descImportObject p) sigb => exact ih seen hnd hdisj
      | .descSigEnvelope (.descImportPromise p) sigb => exact ih seen hnd hdisj
      | .descSigEnvelope (.descAnswer p) sigb => exact ih seen hnd hdisj
      | .descSigEnvelope (.descSigEnvelope o s2) sigb => exact ih seen hnd hdisj

theorem scanHandoffCounts_err (args : List CVal) :
    ∀ seen : Finset Int,
      ¬((handoffCounts args).Nodup ∧ ∀ c ∈ handoffCounts args, c ∉ seen) →
      scanHandoffCounts args seen = .error .replayedHandoff := by
  induction args with
  | nil =>
      intro seen h
      exact absurd ⟨by simp [handoffCounts], by simp [handoffCounts]⟩ h
  | cons arg rest ih =>
      intro seen h
      match arg with
      | .descSigEnvelope (.descHandoffReceive rs rside c sg) sigb =>
          have hcounts : handoffCounts (CVal.descSigEnvelope
              (.descHandoffReceive rs rside c sg) sigb :: rest) = c :: handoffCounts rest := by
            simp [handoffCounts]
          rw [hcounts] at h
          by_cases hc : c ∈ seen
          · rw [scanHandoffCounts, if_pos hc]
          · rw [scanHandoffCounts, if_neg hc]
            refine ih (insert c seen) ?_
            intro ⟨hnd2, hdisj2⟩
            refine h ⟨List.nodup_cons.mpr ⟨?_, hnd2⟩, ?_⟩
            · intro hch
              exact hdisj2 c hch (Finset.mem_insert_self c seen)
            · intro d hd
              rcases List.mem_cons.mp hd with rfl | hd2
              · exact hc
              · intro hds
                exact hdisj2 d hd2 (Finset.mem_insert_of_mem hds)
      | .int n => exact ih seen h
      | .str st => exact ih seen h
      | .sym st => exact ih seen h
      | .bytes bb => exact ih seen h
      | .bool bb => exact ih seen h
      | .descExport p => exact ih seen h
      | .descImportObject p => exact ih seen h
      | .descImportPromise p => exact ih seen h
      | .descAnswer p => exact ih seen h
      | .descHandoffReceive rs rside c sg => exact ih seen h
      | .descSigEnvelope (.int n) sigb => exact ih seen h
      | .descSigEnvelope (.str st) sigb => exact ih seen h
      | .descSigEnvelope (.sym st) sigb => exact ih seen h
      | .descSigEnvelope (.bytes bb) sigb => exact ih seen h
      | .descSigEnvelope (.bool bb) sigb => exact ih seen h
      | .descSigEnvelope (.descExport p) sigb => exact ih seen h
      | .descSigEnvelope (.descImportObject p) sigb => exact ih seen h
      | .descSigEnvelope (.descImportPromise p) sigb => exact ih seen h
      | .descSigEnvelope (.descAnswer p) sigb => exact ih seen h
      | .descSigEnvelope (.descSigEnvelope o s2) sigb => exact ih seen h

/-- C5 amended: the received-handoff replay guard of
`CapTPSession.receive_message`.  An `op:deliver` is scanned argument by
argument for sig-envelopes wrapping handoff-receives: the call succeeds —
returning the message unchanged with every scanned `handoff_count`
inserted into `remote_seen_handoff_counts` — exactly when those counts are
pairwise distinct and none was seen before; otherwise it fails by raising
a plain exception (modelled `SessionError.replayedHandoff`), and no
`op:abort` message (with reason `replayed-handoff` or otherwise) is
constructed or sent.  Messages other than `op:deliver` pass through with
the seen-set untouched. -/
theorem C5_replay_guard (seen : Finset Int) (t : MsgTarget) (args : List CVal)
    (ap : Option Int) (rm : ResolveMe) :
    (receive_message seen (.opDeliver t args ap rm) =
        .ok (.opDeliver t args ap rm, seen ∪ (handoffCounts args).toFinset) ↔
      (handoffCounts args).Nodup ∧ ∀ c ∈ handoffCounts args, c ∉ seen) ∧
    (¬((handoffCounts args).Nodup ∧ ∀ c ∈ handoffCounts args, c ∉ seen) →
      receive_message seen (.opDeliver t args ap rm) = .error .replayedHandoff) ∧
    (∀ msg : Msg, receive_message_sent seen msg = []) ∧
    (∀ v pk loc sig, receive_message seen (.opStartSession v pk loc sig) =
      .ok (.opStartSession v pk loc sig, seen)) := by
  refine ⟨⟨?_, ?_⟩, ?_, fun _ => rfl, fun _ _ _ _ => rfl⟩
  · intro hok
    by_contra hnot
    rw [show receive_message seen (.opDeliver t args ap rm) =
        (match scanHandoffCounts args seen with
         | .error e => .error e
         | .ok seen2 => .ok (.opDeliver t args ap rm, seen2)) from rfl,
      scanHandoffCounts_err args seen hnot] at hok
    exact Except.noConfusion hok
  · intro hcond
    rw [show receive_message seen (.opDeliver t args ap rm) =
        (match scanHandoffCounts args seen with
         | .error e => .error e
         | .ok seen2 => .ok (.opDeliver t args ap rm, seen2)) from rfl,
      scanHandoffCounts_ok args seen hcond.1 hcond.2]
  · intro hnot
    rw [show receive_message seen (.opDeliver t args ap rm) =
        (match scanHandoffCounts args seen with
         | .error e => .error e
         | .ok seen2 => .ok (.opDeliver t args ap rm, seen2)) from rfl,
      scanHandoffCounts_err args seen hnot]

/-- C5 witness: a fresh handoff count (4, with 3 already seen) is inserted
and the message is returned unchanged. -/
theorem C5_replay_guard_witness :
    receive_message {3} (.opDeliver (.export 0)
        [.descSigEnvelope (.descHandoffReceive [] [] 4 (.int 0)) []] none (.importObject 0)) =
      .ok (.opDeliver (.export 0)
        [.descSigEnvelope (.descHandoffReceive [] [] 4 (.int 0)) []] none (.importObject 0),
        {3} ∪ (handoffCounts
          [.descSigEnvelope (.descHandoffReceive [] [] 4 (.int 0)) []]).toFinset) :=
  (C5_replay_guard {3} (.export 0)
    [.descSigEnvelope (.descHandoffReceive [] [] 4 (.int 0)) []] none (.importObject 0)).1.mpr
    (by decide)

/-- C5 counterexample: on a replayed handoff count (3, already seen) the
call fails with the modelled plain exception — and `receive_message` sends
nothing at all, in particular no `op:abort` with reason
`replayed-handoff`, refuting the abort clause of the claim as stated. -/
theorem C5_replay_guard_counterexample :
    receive_message {3} (.opDeliver (.export 0)
        [.descSigEnvelope (.descHandoffReceive [] [] 3 (.int 0)) []] none (.importObject 0)) =
      .error .replayedHandoff ∧
    receive_message_sent {3} (.opDeliver (.export 0)
        [.descSigEnvelope (.descHandoffReceive [] [] 3 (.int 0)) []] none (.importObject 0)) =
      [] :=
  ⟨rfl, rfl⟩

/-! ## The promise-resolution follower -/

/-- C6 counterexample: a concrete promise chain.  The first resolution
fulfills with `DescImportPromise 7`; the follower converts it to
`DescExport 7` and sends `op:listen` — but with `wants_partial = True`
(`utils/captp.py`, line 255), not `false` as claimed. -/
theorem C6_promise_follower_counterexample :
    ∃ r : FollowResult,
      expect_promise_resolution 2 ∅ 5 (.export 0)
        [Msg.opDeliver (.export 0) [.sym "fulfill", .descImportPromise 7] none
          (.importObject 0),
         Msg.opDeliver (.export 5) [.sym "fulfill", .int 1] none (.importObject 0)] = .ok r ∧
      r.sent = [Msg.opListen 7 (.importObject 5) true] ∧
      r.message = Msg.opDeliver (.export 5) [.sym "fulfill", .int 1] none (.importObject 0) ∧
      Msg.opListen 7 (.importObject 5) true ≠ Msg.opListen 7 (.importObject 5) false := by
  refine ⟨_, rfl, rfl, rfl, ?_⟩
  intro h
  have := Msg.opListen.inj h
  simp at this

/-- C6 amended: behaviour of `CapTPSession.expect_promise_resolution` on
each received resolution addressed to the current resolve-me descriptor:
a `break` resolution terminates the loop and is returned; a `fulfill`
whose value is `DescImportPromise p` causes
`op:listen(DescExport p, DescImportObject next, wants_partial=True)` to be
sent (note: `True`, not `false` as the claim states) and the loop to
continue following `DescExport next` with the import counter advanced; a
`fulfill` with any non-promise value terminates, returning the message. -/
theorem C6_promise_follower (fuel : Nat) (seen : Finset Int) (n : Int) (rm : MsgTarget)
    (incoming : List Msg) (m : Msg) (seen2 : Finset Int) (rest : List Msg)
    (hfind : expect_message_to seen rm incoming = .ok (m, seen2, rest)) :
    (∀ args1, msgArgs m = CVal.sym "break" :: args1 →
      expect_promise_resolution (fuel + 1) seen n rm incoming =
        .ok ⟨m, [], n, seen2, rest⟩) ∧
    (∀ p args2, msgArgs m = CVal.sym "fulfill" :: CVal.descImportPromise p :: args2 →
      expect_promise_resolution (fuel + 1) seen n rm incoming =
        (match expect_promise_resolution fuel seen2 (n + 1) (.export n) rest with
         | .error e => .error e
         | .ok r => .ok ⟨r.message, Msg.opListen p (.importObject n) true :: r.sent,
             r.nextImportPos, r.seen, r.remaining⟩)) ∧
    (∀ a1 args2, msgArgs m = CVal.sym "fulfill" :: a1 :: args2 →
      (∀ q, a1 ≠ CVal.descImportPromise q) →
      expect_promise_resolution (fuel + 1) seen n rm incoming =
        .ok ⟨m, [], n, seen2, rest⟩) := by
  refine ⟨?_, ?_, ?_⟩
  · intro args1 hargs
    rw [expect_promise_resolution, hfind]
    dsimp only
    rw [hargs]
    dsimp only
    rw [if_pos (Or.inr rfl), if_pos rfl]
  · intro p args2 hargs
    rw [expect_promise_resolution, hfind]
    dsimp only
    rw [hargs]
    dsimp only
    rw [if_pos (Or.inl rfl), if_neg (by decide)]
  · intro a1 args2 hargs hnp
    rw [expect_promise_resolution, hfind]
    dsimp only
    rw [hargs]
    dsimp only
    rw [if_pos (Or.inl rfl), if_neg (by decide)]
    cases a1 with
    | int k => rfl
    | str st => rfl
    | sym st => rfl
    | bytes bb => rfl
    | bool bb => rfl
    | descExport q => rfl
    | descImportObject q => rfl
    | descImportPromise q => exact absurd rfl (hnp q)
    | descAnswer q => rfl
    | descSigEnvelope o sg => rfl
    | descHandoffReceive rs rside c sg => rfl

/-- C6 witness: the amended theorem applied to the concrete chain of the
counterexample discharges its hypotheses and reproduces the recorded
`op:listen` with `wants_partial = True`. -/
theorem C6_promise_follower_witness :
    expect_promise_resolution 2 ∅ 5 (.export 0)
      [Msg.opDeliver (.export 0) [.sym "fulfill", .descImportPromise 7] none (.importObject 0),
       Msg.opDeliver (.export 5) [.sym "fulfill", .int 1] none (.importObject 0)] =
      (match expect_promise_resolution 1 ∅ 6 (.export 5)
          [Msg.opDeliver (.export 5) [.sym "fulfill", .int 1] none (.importObject 0)] with
       | .error e => .error e
       | .ok r => .ok ⟨r.message, Msg.opListen 7 (.importObject 5) true :: r.sent,
           r.nextImportPos, r.seen, r.remaining⟩) :=
  (C6_promise_follower 1 ∅ 5 (.export 0)
    [Msg.opDeliver (.export 0) [.sym "fulfill", .descImportPromise 7] none (.importObject 0),
     Msg.opDeliver (.export 5) [.sym "fulfill", .int 1] none (.importObject 0)]
    (Msg.opDeliver (.export 0) [.sym "fulfill", .descImportPromise 7] none (.importObject 0))
    ∅ [Msg.opDeliver (.export 5) [.sym "fulfill", .int 1] none (.importObject 0)]
    rfl).2.1 7 [] rfl

/-! ## The double receive in `setup_session` -/

/-- C10: the claimed double receive is the behaviour of lines 51–75, but
the staged method never reaches them.  (1) Every call to `setup_session`
fails with the `AttributeError` of line 52 — the never-assigned
`self.captp_version` — before the first receive, so the handshake fails
rather than proceeding (a fortiori, a peer sending one `op:start-session`
never completes it).  (2) The continuation from line 51 onward, modelled
with the version supplied as the method's (otherwise ignored) parameter —
the evident intent, given the signature and every call site — behaves
exactly as claimed: with two `op:start-session` messages it completes,
consuming exactly both, with `remote_public_key` overwritten by the key of
the *second* message; with only one message the unconditional second
`receive_message` blocks (the handshake stalls); and a message that is not
an `op:start-session` (here: any `op:abort`) fails the
`assert isinstance(..., OpStartSession)`, in either position. -/
theorem C10_double_receive (isOutbound : Bool) (v : String) (pk : List Nat) (loc : Value)
    (sig : List Nat) (seen : Finset Int) :
    (∀ incoming : List Msg,
      setup_session isOutbound v pk loc sig seen incoming = .error .attributeError) ∧
    (∀ v1 v2 pk1 pk2 loc1 loc2 sig1 sig2 (rest : List Msg),
      ∃ r : SetupResult, setup_session_rest isOutbound v pk loc sig seen
          (Msg.opStartSession v1 pk1 loc1 sig1 ::
            Msg.opStartSession v2 pk2 loc2 sig2 :: rest) = .ok r ∧
        r.remotePublicKey = pk2 ∧ r.remaining = rest) ∧
    (∀ v1 pk1 loc1 sig1,
      setup_session_rest isOutbound v pk loc sig seen [Msg.opStartSession v1 pk1 loc1 sig1] =
        .error .blocked) ∧
    (∀ reason rest,
      setup_session_rest isOutbound v pk loc sig seen (Msg.opAbort reason :: rest) =
        .error .assertionFailed) ∧
    (∀ v1 pk1 loc1 sig1 reason rest,
      setup_session_rest isOutbound v pk loc sig seen
          (Msg.opStartSession v1 pk1 loc1 sig1 :: Msg.opAbort reason :: rest) =
        .error .assertionFailed) := by
  refine ⟨fun _ => rfl, ?_, ?_, ?_, ?_⟩
  · intro v1 v2 pk1 pk2 loc1 loc2 sig1 sig2 rest
    cases isOutbound <;> exact ⟨_, rfl, rfl, rfl⟩
  · intro v1 pk1 loc1 sig1
    cases isOutbound <;> rfl
  · intro reason rest
    cases isOutbound <;> rfl
  · intro v1 pk1 loc1 sig1 reason rest
    cases isOutbound <;> rfl

/-! ## OCapN URI serialization -/

/-- C7: the URI round trip is broken.  `OCapNNode.to_uri` emits
`ocapn://<address>` followed only by the optional query — the
`.<transport>` segment required by the grammar (and expected by
`from_uri`, which splits the netloc at its last dot) is never appended.
Concretely, the locator with transport `tcp`, designator `example.com` and
hints `{h: v}` serializes to `ocapn://example.com?h=v`, and parsing that
back yields transport `com` and designator `example`: the transport is
lost and the round trip does not return the original locator. -/
theorem C7_uri_roundtrip_broken :
    OCapNNode.to_uri ⟨"tcp".data, "example.com".data, [("h".data, "v".data)]⟩ =
      "ocapn://example.com?h=v".data ∧
    OCapNNode.from_uri
        (OCapNNode.to_uri ⟨"tcp".data, "example.com".data, [("h".data, "v".data)]⟩) =
      some ⟨"com".data, "example".data, [("h".data, "v".data)]⟩ ∧
    (some (⟨"com".data, "example".data, [("h".data, "v".data)]⟩ : OCapNNode) ≠
      some (⟨"tcp".data, "example.com".data, [("h".data, "v".data)]⟩ : OCapNNode)) := by
  refine ⟨rfl, rfl, ?_⟩
  decide
